import Mathlib

/-!
# Calendario-Universitario: landing page script (`pagina_web/script.js`)

A shallow embedding of the page script and the properties of its URL handling,
password-reset flow, share-code display and app hand-off.

JavaScript strings are modelled as lists of Unicode scalar values (`List Char`),
that is, as well-formed UTF-16 strings; where the script looks at the UTF-16
length of a string (`newPassword.length`) the model counts code units with
`jsLength`.  The browser state the script reads and writes (location, the DOM
elements it touches, alerts, calls into the authentication SDK, navigations,
timers) is an explicit record, `Page`; `href`, `pathname` and `search` are
independent fields, so every statement over all pages covers the real ones.

The built-ins `decodeURIComponent` and `encodeURIComponent` follow ECMA-262
(`Decode`, `Encode`).  The regular expression of `getParameterByName` is embedded
by its meaning for a parameter name that the pattern takes literally; the
script itself reads the names `mode` and `oobCode` only.
-/

namespace Calendario

/-- A JavaScript string value. -/
abbrev Str := List Char

/-- Exceptions the script can raise on the modelled paths. -/
inductive JsError where
  | uriError
  deriving DecidableEq, Repr

deriving instance DecidableEq for Except

/-! ## Built-ins used by the script -/

/-- The `length` of a JavaScript string: the number of UTF-16 code units. -/
def jsLength : Str → Nat
  | [] => 0
  | c :: cs => (if c.toNat < 0x10000 then 1 else 2) + jsLength cs

/-- ECMAScript `ParseHexOctet`, one digit: the value of a hexadecimal digit. -/
def hexValue (c : Char) : Option Nat :=
  if 48 ≤ c.toNat ∧ c.toNat ≤ 57 then some (c.toNat - 48)
  else if 65 ≤ c.toNat ∧ c.toNat ≤ 70 then some (c.toNat - 55)
  else if 97 ≤ c.toNat ∧ c.toNat ≤ 102 then some (c.toNat - 87)
  else none

/-- ECMAScript `ParseHexOctet`: the octet written by two hexadecimal digits. -/
def parseHexOctet (a b : Char) : Option Nat :=
  match hexValue a, hexValue b with
  | some x, some y => some (16 * x + y)
  | _, _ => none

/-- A continuation octet of UTF-8: `10xxxxxx`. -/
def isContinuation (b : Nat) : Bool := 0x80 ≤ b && b < 0xC0

/-- The code point a UTF-8 sequence of two octets stands for, when it is a valid
encoding (no overlong form). -/
def utf8Decode2 (b0 b1 : Nat) : Option Nat :=
  let v := (b0 % 0x20) * 0x40 + b1 % 0x40
  if isContinuation b1 && 0x80 ≤ v then some v else none

/-- The code point a UTF-8 sequence of three octets stands for, when it is a valid
encoding (no overlong form, no surrogate). -/
def utf8Decode3 (b0 b1 b2 : Nat) : Option Nat :=
  let v := (b0 % 0x10) * 0x1000 + (b1 % 0x40) * 0x40 + b2 % 0x40
  if isContinuation b1 && isContinuation b2 && 0x800 ≤ v && !(0xD800 ≤ v && v ≤ 0xDFFF)
  then some v else none

/-- The code point a UTF-8 sequence of four octets stands for, when it is a valid
encoding (no overlong form, at most U+10FFFF). -/
def utf8Decode4 (b0 b1 b2 b3 : Nat) : Option Nat :=
  let v := (b0 % 0x8) * 0x40000 + (b1 % 0x40) * 0x1000 + (b2 % 0x40) * 0x40 + b3 % 0x40
  if isContinuation b1 && isContinuation b2 && isContinuation b3 && 0x10000 ≤ v && v ≤ 0x10FFFF
  then some v else none

/-- The escape `%XY` at the head of a string: its octet and the rest of the string.
`none` when the string does not start with `%` and two hexadecimal digits. -/
def readEscape : Str → Option (Nat × Str)
  | p :: a :: b :: rest =>
    if p = '%' then (parseHexOctet a b).map (fun o => (o, rest)) else none
  | _ => none

/-- One step of ECMAScript `Decode` (empty preserved set) at a non-empty string
`c :: rest`: the decoded character and what is left of the string. A character
other than `%` stands for itself; `%XY` with a leading octet of `n` one-bits
starts a UTF-8 sequence of `n` escapes (`n = 0`: the octet itself). -/
def decodeStep (c : Char) (rest : Str) : Except JsError (Char × Str) :=
  if c ≠ '%' then .ok (c, rest)
  else
    match readEscape (c :: rest) with
    | none => .error .uriError
    | some (b0, r0) =>
      if b0 < 0x80 then .ok (Char.ofNat b0, r0)
      else if b0 < 0xC0 then .error .uriError
      else if b0 < 0xE0 then
        match readEscape r0 with
        | none => .error .uriError
        | some (b1, r1) =>
          match utf8Decode2 b0 b1 with
          | none => .error .uriError
          | some v => .ok (Char.ofNat v, r1)
      else if b0 < 0xF0 then
        match readEscape r0 with
        | none => .error .uriError
        | some (b1, r1) =>
          match readEscape r1 with
          | none => .error .uriError
          | some (b2, r2) =>
            match utf8Decode3 b0 b1 b2 with
            | none => .error .uriError
            | some v => .ok (Char.ofNat v, r2)
      else if b0 < 0xF8 then
        match readEscape r0 with
        | none => .error .uriError
        | some (b1, r1) =>
          match readEscape r1 with
          | none => .error .uriError
          | some (b2, r2) =>
            match readEscape r2 with
            | none => .error .uriError
            | some (b3, r3) =>
              match utf8Decode4 b0 b1 b2 b3 with
              | none => .error .uriError
              | some v => .ok (Char.ofNat v, r3)
      else .error .uriError

/-- The loop of ECMAScript `Decode`: `fuel` bounds the number of steps, each of
which consumes at least one character, so that a fuel of the length of the
string is never used up (`decodeLoop_fuel`). -/
def decodeLoop : Nat → Str → Except JsError Str
  | _, [] => .ok []
  | 0, _ :: _ => .error .uriError
  | fuel + 1, c :: rest =>
    match decodeStep c rest with
    | .error e => .error e
    | .ok (d, rest') =>
      match decodeLoop fuel rest' with
      | .error e => .error e
      | .ok out => .ok (d :: out)

/-- The built-in `decodeURIComponent` (ECMA-262 `Decode` with an empty preserved
set): raises `URIError` on a `%` that is not followed by two hexadecimal digits
and on escapes that are not the UTF-8 encoding of a code point. -/
def decodeURIComponent (s : Str) : Except JsError Str :=
  decodeLoop s.length s

/-- The uppercase hexadecimal digit of a value below 16. -/
def hexDigit (n : Nat) : Char :=
  if n < 10 then Char.ofNat (48 + n) else Char.ofNat (55 + n)

/-- The escape `%XY` of one octet, as `encodeURIComponent` writes it. -/
def escapeOctet (b : Nat) : Str :=
  ['%', hexDigit (b / 16), hexDigit (b % 16)]

/-- The UTF-8 encoding of a code point. -/
def utf8Encode (v : Nat) : List Nat :=
  if v < 0x80 then [v]
  else if v < 0x800 then [0xC0 + v / 0x40, 0x80 + v % 0x40]
  else if v < 0x10000 then [0xE0 + v / 0x1000, 0x80 + v / 0x40 % 0x40, 0x80 + v % 0x40]
  else [0xF0 + v / 0x40000, 0x80 + v / 0x1000 % 0x40, 0x80 + v / 0x40 % 0x40, 0x80 + v % 0x40]

/-- The characters `encodeURIComponent` leaves as they are: ASCII letters, digits
and the marks `-_.!~*'()`. -/
def isUnreserved (c : Char) : Bool :=
  c.isAlphanum || c = '-' || c = '_' || c = '.' || c = '!' || c = '~' || c = '*'
    || c = '\'' || c = '(' || c = ')'

/-- What `encodeURIComponent` writes for one character. -/
def encodeChar (c : Char) : Str :=
  if isUnreserved c then [c] else (utf8Encode c.toNat).flatMap escapeOctet

/-- The built-in `encodeURIComponent` (ECMA-262 `Encode` with the unreserved set)
on a well-formed string. -/
def encodeURIComponent (s : Str) : Str :=
  s.flatMap encodeChar

/-- The call `s.replace(/\+/g, ' ')`: every `+` becomes a space. -/
def plusToSpace (s : Str) : Str :=
  s.map (fun c => if c = '+' then ' ' else c)

/-- The call `name.replace(/[\[\]]/g, '\\$&')`: a backslash is put before every
square bracket. -/
def escapeBrackets : Str → Str
  | [] => []
  | c :: cs =>
    if c = '[' ∨ c = ']' then '\\' :: c :: escapeBrackets cs else c :: escapeBrackets cs

/-- The syntax characters of a regular-expression pattern. -/
def isSyntaxChar (c : Char) : Bool :=
  c = '^' || c = '$' || c = '\\' || c = '.' || c = '*' || c = '+' || c = '?' || c = '('
    || c = ')' || c = '[' || c = ']' || c = '{' || c = '}' || c = '|'

/-- Matching the part of the pattern that comes from the parameter name at the
head of a text: an ordinary character matches itself and a backslash followed by
a character matches that character. Returns the text after the match. This is
what the pattern built by `new RegExp` means when every syntax character of the
name is a square bracket, which `escapeBrackets` has escaped; for a name with
another syntax character (`.`, `(`, a backslash, ...) the script builds a
different pattern or fails to build one, and that is outside this embedding:
every statement below about a parameter name takes a name without them. -/
def matchSource : Str → Str → Option Str
  | [], t => some t
  | [c], t =>
    match t with
    | d :: t' => if d = c then some t' else none
    | [] => none
  | c :: e :: src, t =>
    if c = '\\' then
      match t with
      | d :: t' => if d = e then matchSource src t' else none
      | [] => none
    else
      match t with
      | d :: t' => if d = c then matchSource (e :: src) t' else none
      | [] => none

/-- The group `(=([^&#]*)|&|#|$)` tried at the head of a text. `none`: no
alternative matches. `some g`: the group matches and `g` is capture 2, which is
`none` (undefined) unless the first alternative was taken; that alternative takes
the longest run of characters other than `&` and `#`. -/
def matchValue : Str → Option (Option Str)
  | [] => some none
  | c :: rest =>
    if c = '=' then some (some (rest.takeWhile (fun d => d ≠ '&' ∧ d ≠ '#')))
    else if c = '&' ∨ c = '#' then some none
    else none

/-- The pattern `[?&]` + name + `(=([^&#]*)|&|#|$)` tried at the head of a text. -/
def matchHere (src : Str) : Str → Option (Option Str)
  | [] => none
  | c :: rest =>
    if c = '?' ∨ c = '&' then
      match matchSource src rest with
      | some t => matchValue t
      | none => none
    else none

/-- The call `regex.exec(url)`: the match at the leftmost position of the text
where the pattern matches, given by its capture 2; `none` is the `null` of no
match. -/
def regexExec (src : Str) : Str → Option (Option Str)
  | [] => none
  | c :: rest =>
    match matchHere src (c :: rest) with
    | some g => some g
    | none => regexExec src rest

/-- The function `getParameterByName(name)` of the script, with the value of
`window.location.href` as `url`. The result `none` is `null`. The embedding is
that of the script for a name whose syntax characters are square brackets only
(see `matchSource`); the script itself calls it with `mode` and `oobCode`. -/
def getParameterByName (url name : Str) : Except JsError (Option Str) :=
  match regexExec (escapeBrackets name) url with
  | none => .ok none
  | some none => .ok (some [])
  | some (some []) => .ok (some [])
  | some (some (c :: v)) =>
    match decodeURIComponent (plusToSpace (c :: v)) with
    | .error e => .error e
    | .ok s => .ok (some s)

/-- The call `s.split(sep)` with a one-character separator; `cur` is the part
being read. -/
def splitAux (sep : Char) (cur : Str) : Str → List Str
  | [] => [cur]
  | c :: cs => if c = sep then cur :: splitAux sep [] cs else splitAux sep (cur ++ [c]) cs

/-- The call `s.split(sep)` with a one-character separator. -/
def split (sep : Char) (s : Str) : List Str :=
  splitAux sep [] s

/-- The call `s.replace(pat, rep)` with a string pattern and a replacement text
without `$`: the first occurrence of `pat` is replaced. -/
def replaceFirst (pat rep : Str) : Str → Str
  | [] => if pat = [] then rep else []
  | c :: cs =>
    if pat.isPrefixOf (c :: cs) then rep ++ (c :: cs).drop pat.length
    else c :: replaceFirst pat rep cs

/-! ## The page state -/

/-- What the script reads and writes in the browser. The elements the script looks
up by id are taken to exist in the document. -/
structure Page where
  /-- The value of `window.location.href`. -/
  href : Str
  /-- The value of `window.location.pathname`. -/
  pathname : Str
  /-- The value of `window.location.search`. -/
  search : Str
  /-- The value of the input `new-password`. -/
  newPassword : Str
  /-- The `innerText` of the element `message`. -/
  message : Str
  /-- The `style.display` of the element `app-actions`. -/
  appActionsDisplay : Str
  /-- The `style.display` of the element `reset-password-container`. -/
  resetContainerDisplay : Str
  /-- The `innerText` of the element `share-code-text`. -/
  shareCodeText : Str
  /-- The `style.display` of the element `share-code-container`. -/
  shareCodeContainerDisplay : Str
  /-- The texts shown by `alert`, oldest first. -/
  alerts : List Str
  /-- The calls `auth.confirmPasswordReset(actionCode, newPassword)`, oldest first;
  an action code `none` is `null`. -/
  authCalls : List (Option Str × Str)
  /-- The values assigned to `window.location.href`, oldest first. -/
  navigations : List Str
  /-- The argument lists of `console.log`, oldest first. -/
  consoleLog : List (List Str)
  /-- The timers set by `setTimeout`: the delay and the text the callback writes to
  the element `message`. -/
  timers : List (Nat × Str)
  /-- The exceptions that left a handler uncaught, oldest first. -/
  uncaught : List JsError
  deriving DecidableEq, Repr

/-- How the promise of `auth.confirmPasswordReset` settles. -/
inductive ProviderAnswer where
  | fulfilled
  | rejected (message : Str)
  deriving DecidableEq, Repr

/-! ## The script -/

/-- The expression `parts[parts.length - 1]` for `parts = path.split('/')`; `none`
is `undefined`. -/
def lastPart (path : Str) : Option Str :=
  let parts := split '/' path
  parts[parts.length - 1]?

/-- The function `getShareCode()` of the script, with the value of
`window.location.pathname` as `path`. The result `none` is `null`. -/
def getShareCode (path : Str) : Option Str :=
  match lastPart path with
  | none => none
  | some code => if code ≠ [] ∧ code ≠ ['p'] ∧ code ≠ [] then some code else none

/-- The text of the deep link `calendario://app/p/${code}${window.location.search}`. -/
def deepLink (code search : Str) : Str :=
  "calendario://app/p/".toList ++ code ++ search

/-- The function `tryOpenApp()` of the script. -/
def tryOpenApp (p : Page) : Page :=
  match lastPart p.pathname with
  | none => p
  | some code =>
    if code ≠ [] ∧ code ≠ ['p'] ∧ code ≠ [] then
      { p with
        consoleLog := p.consoleLog ++ [["Intentando abrir:".toList, deepLink code p.search]]
        navigations := p.navigations ++ [deepLink code p.search]
        timers := p.timers ++ [(2500,
          "Si la app no se abre, usa el código de arriba para importar manualmente.".toList)] }
    else p

/-- The share-code branch of the load handler (lines 47 to 55 of the script). -/
def showShareCode (p : Page) : Page :=
  match getShareCode p.pathname with
  | none => p
  | some shareCode =>
    if "share_".toList.isPrefixOf shareCode then
      { p with
        shareCodeText := replaceFirst "share_".toList [] shareCode
        shareCodeContainerDisplay := "block".toList
        message := "Alguien te compartió un semestre".toList }
    else p

/-- The page after the reset branch of the load handler (lines 41 to 43 of the
script). -/
def showResetForm (p : Page) : Page :=
  { p with
    message := "Ingresa tu nueva contraseña".toList
    appActionsDisplay := "none".toList
    resetContainerDisplay := "block".toList }

/-- The handler of `DOMContentLoaded`. An exception of one of the two parameter
reads, which come before every effect, ends the handler. -/
def onLoad (p : Page) : Page :=
  match getParameterByName p.href "mode".toList with
  | .error e => { p with uncaught := p.uncaught ++ [e] }
  | .ok mode =>
    match getParameterByName p.href "oobCode".toList with
    | .error e => { p with uncaught := p.uncaught ++ [e] }
    | .ok actionCode =>
      if mode = some "resetPassword".toList ∧ actionCode ≠ none ∧ actionCode ≠ some [] then
        showResetForm p
      else tryOpenApp (showShareCode p)

/-- The function `handleResetPassword()` of the script, up to the call of
`auth.confirmPasswordReset`; the promise settles later (`resetSettled`). -/
def handleResetPassword (p : Page) : Page :=
  match getParameterByName p.href "oobCode".toList with
  | .error e => { p with uncaught := p.uncaught ++ [e] }
  | .ok actionCode =>
    if p.newPassword = [] then
      { p with alerts := p.alerts ++ ["Por favor ingresa una contraseña".toList] }
    else if jsLength p.newPassword < 6 then
      { p with alerts := p.alerts ++ ["La contraseña debe tener al menos 6 caracteres".toList] }
    else
      { p with authCalls := p.authCalls ++ [(actionCode, p.newPassword)] }

/-- The callbacks `.then(...)` and `.catch(...)` of `handleResetPassword`, run when
the promise of `auth.confirmPasswordReset` settles. -/
def resetSettled (answer : ProviderAnswer) (p : Page) : Page :=
  match answer with
  | .fulfilled =>
    { p with
      alerts := p.alerts ++
        ["Contraseña actualizada correctamente. Ya puedes iniciar sesión en la app.".toList]
      message := "✅ Contraseña actualizada.".toList
      resetContainerDisplay := "none".toList }
  | .rejected m =>
    { p with alerts := p.alerts ++ ["Error: ".toList ++ m] }

/-! ## Notions the properties are stated with -/

/-- The text `c` is the final `/`-separated segment of `path`: it has no `/` and
`path` is `c` itself or ends in `/` followed by `c`. -/
def IsFinalSegment (path c : Str) : Prop :=
  '/' ∉ c ∧ (path = c ∨ ∃ pre, path = pre ++ '/' :: c)

/-- The parameter name has no syntax character of a regular expression. -/
def PlainName (name : Str) : Prop :=
  ∀ c ∈ name, isSyntaxChar c = false

/-- What may follow the parameter name in a match: `=`, `&`, `#` or the end of the
text. -/
def Delimited (t : Str) : Prop :=
  t = [] ∨ ∃ c r, t = c :: r ∧ (c = '=' ∨ c = '&' ∨ c = '#')

/-- The parameter occurs in the text of the URL after `pre`: a `?` or `&`, the name,
and then `tail`, which starts with a delimiter or is empty. -/
def OccursAt (name url pre tail : Str) : Prop :=
  ∃ d, (d = '?' ∨ d = '&') ∧ url = pre ++ d :: (name ++ tail) ∧ Delimited tail

/-- The leftmost occurrence of the parameter in the text of the URL. -/
def FirstOccurrence (name url pre tail : Str) : Prop :=
  OccursAt name url pre tail ∧
    ∀ pre' tail', OccursAt name url pre' tail' → pre.length ≤ pre'.length

/-- The text ends here or goes on with `&` or `#`: where a parameter value ends. -/
def ValueEnds (rest : Str) : Prop :=
  rest = [] ∨ ∃ c r, rest = c :: r ∧ (c = '&' ∨ c = '#')

/-- A page as it stands when the script starts at a location: the texts and
`style.display` values of its elements empty, nothing alerted, called, navigated
to, logged or scheduled. -/
def freshPage (href pathname search newPassword : Str) : Page :=
  { href := href, pathname := pathname, search := search, newPassword := newPassword
    message := [], appActionsDisplay := [], resetContainerDisplay := []
    shareCodeText := [], shareCodeContainerDisplay := []
    alerts := [], authCalls := [], navigations := [], consoleLog := [], timers := []
    uncaught := [] }

/-- The query string of a URL as the URL standard reads it: what stands after the
first `?` of the part before the fragment, which starts at the first `#`. -/
def queryString (url : Str) : Str :=
  ((url.takeWhile (fun c => c ≠ '#')).dropWhile (fun c => c ≠ '?')).drop 1

/-- The names of the parameters of the query string of a URL: the query string is
split at `&` and a name ends at the first `=`. -/
def queryParameterNames (url : Str) : List Str :=
  ((split '&' (queryString url)).filter (fun kv => kv ≠ [])).map
    (fun kv => kv.takeWhile (fun c => c ≠ '='))

/-! ## Splitting a path -/

theorem splitAux_no_sep (sep : Char) (s : Str) (hs : sep ∉ s) (cur : Str) :
    splitAux sep cur s = [cur ++ s] := by
  induction s generalizing cur with
  | nil => simp [splitAux]
  | cons c cs ih =>
    have hc : c ≠ sep := fun h => hs (by simp [h])
    have hcs : sep ∉ cs := fun h => hs (by simp [h])
    simp [splitAux, hc, ih hcs]

theorem splitAux_append_sep (sep : Char) (pre c : Str) (cur : Str) :
    ∃ front, splitAux sep cur (pre ++ sep :: c) = front ++ splitAux sep [] c := by
  induction pre generalizing cur with
  | nil => exact ⟨[cur], by simp [splitAux]⟩
  | cons d ds ih =>
    by_cases hd : d = sep
    · obtain ⟨front, hf⟩ := ih []
      exact ⟨cur :: front, by simp [splitAux, hd, hf]⟩
    · obtain ⟨front, hf⟩ := ih (cur ++ [d])
      exact ⟨front, by simp [splitAux, hd, hf]⟩

theorem splitAux_parts_no_sep (sep : Char) (s cur : Str) (hcur : sep ∉ cur) :
    ∀ part ∈ splitAux sep cur s, sep ∉ part := by
  induction s generalizing cur with
  | nil => simpa [splitAux] using hcur
  | cons c cs ih =>
    by_cases hc : c = sep
    · intro part hpart
      simp only [splitAux, hc, if_true, List.mem_cons] at hpart
      rcases hpart with h | h
      · exact h ▸ hcur
      · exact ih [] (by simp) part h
    · intro part hpart
      simp only [splitAux, hc, if_false] at hpart
      refine ih (cur ++ [c]) ?_ part hpart
      simp only [List.mem_append, List.mem_singleton, not_or]
      exact ⟨hcur, fun h => hc h.symm⟩

theorem getElem?_last_snoc (front : List Str) (c : Str) :
    (front ++ [c])[(front ++ [c]).length - 1]? = some c := by
  simp

/-- The expression `parts[parts.length - 1]` is the final segment of the path. -/
theorem lastPart_of_final (path c : Str) (h : IsFinalSegment path c) :
    lastPart path = some c := by
  obtain ⟨hc, hpath | ⟨pre, hpath⟩⟩ := h
  · subst hpath
    simp [lastPart, split, splitAux_no_sep '/' path hc]
  · obtain ⟨front, hf⟩ := splitAux_append_sep '/' pre c []
    rw [splitAux_no_sep '/' c hc] at hf
    simp only [lastPart, split, hpath, hf, List.nil_append]
    exact getElem?_last_snoc front c

theorem lastPart_no_slash (path c : Str) (h : lastPart path = some c) : '/' ∉ c := by
  have hmem : c ∈ split '/' path := by
    simp only [lastPart] at h
    exact List.getElem?_mem h
  exact splitAux_parts_no_sep '/' path [] (by simp) c hmem

theorem final_segment_exists (path : Str) : ∃ c, IsFinalSegment path c := by
  induction path with
  | nil => exact ⟨[], by simp [IsFinalSegment]⟩
  | cons d ds ih =>
    obtain ⟨c, hc, hds | ⟨pre, hds⟩⟩ := ih
    · by_cases hd : d = '/'
      · exact ⟨c, hc, Or.inr ⟨[], by simp [hd, hds]⟩⟩
      · refine ⟨d :: c, ?_, Or.inl (by rw [hds])⟩
        simp only [List.mem_cons, not_or]
        exact ⟨fun h => hd h.symm, hc⟩
    · exact ⟨c, hc, Or.inr ⟨d :: pre, by simp [hds]⟩⟩

/-! ## The regular expression of `getParameterByName` -/

theorem escapeBrackets_plain (name : Str) (h : PlainName name) :
    escapeBrackets name = name := by
  induction name with
  | nil => rfl
  | cons c cs ih =>
    have hc : isSyntaxChar c = false := h c (by simp)
    have hb : ¬ (c = '[' ∨ c = ']') := by
      intro hb
      rcases hb with hb | hb <;> simp [hb, isSyntaxChar] at hc
    simp [escapeBrackets, hb, ih (fun d hd => h d (by simp [hd]))]

theorem matchSource_plain (name : Str) (h : PlainName name) (t r : Str) :
    matchSource name t = some r ↔ t = name ++ r := by
  induction name generalizing t with
  | nil => simp [matchSource, eq_comm]
  | cons c cs ih =>
    have hc : c ≠ '\\' := by
      intro hb
      have := h c (by simp)
      simp [hb, isSyntaxChar] at this
    have hcs : PlainName cs := fun d hd => h d (by simp [hd])
    cases cs with
    | nil =>
      cases t with
      | nil => simp [matchSource]
      | cons d t' =>
        by_cases hd : d = c
        · simp [matchSource, hd, eq_comm]
        · simp only [matchSource, hd, if_false, List.singleton_append, List.cons.injEq]
          constructor
          · intro hm
            cases hm
          · intro hm
            exact hm.1.elim
    | cons e src =>
      cases t with
      | nil => simp [matchSource, hc]
      | cons d t' =>
        by_cases hd : d = c
        · simp [matchSource, hc, hd, ih hcs]
        · simp [matchSource, hc, hd]

/-- For a name whose only syntax characters are square brackets, the pattern
source that `escapeBrackets` writes matches the name itself and nothing else. -/
theorem matchSource_escapeBrackets (name : Str)
    (h : ∀ c ∈ name, isSyntaxChar c = true → c = '[' ∨ c = ']') (t r : Str) :
    matchSource (escapeBrackets name) t = some r ↔ t = name ++ r := by
  induction name generalizing t with
  | nil => simp [escapeBrackets, matchSource, eq_comm]
  | cons c cs ih =>
    have hcs : ∀ d ∈ cs, isSyntaxChar d = true → d = '[' ∨ d = ']' :=
      fun d hd => h d (by simp [hd])
    by_cases hb : c = '[' ∨ c = ']'
    · simp only [escapeBrackets, hb, if_true]
      cases t with
      | nil => simp [matchSource]
      | cons d t' =>
        by_cases hd : d = c
        · simp [matchSource, hd, ih hcs]
        · simp [matchSource, hd]
    · have hc : c ≠ '\\' := by
        intro hc
        have := h c (by simp) (by rw [hc]; decide)
        exact hb this
      simp only [escapeBrackets, hb, if_false]
      cases he : escapeBrackets cs with
      | nil =>
        have hcs' : cs = [] := by
          cases cs with
          | nil => rfl
          | cons x xs =>
            simp only [escapeBrackets] at he
            split at he <;> cases he
        subst hcs'
        cases t with
        | nil => simp [matchSource]
        | cons d t' =>
          by_cases hd : d = c
          · simp [matchSource, hd, eq_comm]
          · simp only [matchSource, hd, if_false, List.singleton_append, List.cons.injEq]
            constructor
            · intro hm
              cases hm
            · intro hm
              exact hm.1.elim
      | cons e src =>
        cases t with
        | nil => simp [matchSource, hc]
        | cons d t' =>
          by_cases hd : d = c
          · have := ih hcs t'
            rw [he] at this
            simp [matchSource, hc, hd, this]
          · simp [matchSource, hc, hd]

theorem matchValue_isSome_iff (t : Str) :
    (∃ g, matchValue t = some g) ↔ Delimited t := by
  cases t with
  | nil => simp [matchValue, Delimited]
  | cons c r =>
    by_cases h1 : c = '='
    · simp [matchValue, Delimited, h1]
    · by_cases h2 : c = '&'
      · simp [matchValue, Delimited, h2]
      · by_cases h3 : c = '#'
        · simp [matchValue, Delimited, h3]
        · simp [matchValue, Delimited, h1, h2, h3]

theorem matchHere_plain (name : Str) (h : PlainName name) (t : Str) (g : Option Str) :
    matchHere name t = some g ↔
      ∃ d tail, (d = '?' ∨ d = '&') ∧ t = d :: (name ++ tail) ∧ matchValue tail = some g := by
  cases t with
  | nil => simp [matchHere]
  | cons c rest =>
    by_cases hc : c = '?' ∨ c = '&'
    · simp only [matchHere, hc, if_true]
      constructor
      · intro hm
        cases hs : matchSource name rest with
        | none => simp [hs] at hm
        | some t' =>
          simp only [hs] at hm
          exact ⟨c, t', hc, by rw [(matchSource_plain name h rest t').1 hs], hm⟩
      · rintro ⟨d, tail, -, heq, hv⟩
        simp only [List.cons.injEq] at heq
        have hs : matchSource name rest = some tail :=
          (matchSource_plain name h rest tail).2 heq.2
        simp [hs, hv]
    · simp only [matchHere, hc, if_false]
      constructor
      · intro hm
        cases hm
      · rintro ⟨d, tail, hd, heq, -⟩
        simp only [List.cons.injEq] at heq
        exact absurd (heq.1 ▸ hd) hc

theorem matchHere_of_occurs (name : Str) (h : PlainName name) (url tail : Str)
    (ho : OccursAt name url [] tail) : matchHere name url = matchValue tail := by
  obtain ⟨d, hd, hurl, hdel⟩ := ho
  obtain ⟨g, hg⟩ := (matchValue_isSome_iff tail).2 hdel
  rw [hg]
  exact (matchHere_plain name h url g).2 ⟨d, tail, hd, by simpa using hurl, hg⟩

theorem occurs_of_matchHere (name : Str) (h : PlainName name) (url : Str) (g : Option Str)
    (hm : matchHere name url = some g) : ∃ tail, OccursAt name url [] tail := by
  obtain ⟨d, tail, hd, hurl, hv⟩ := (matchHere_plain name h url g).1 hm
  exact ⟨tail, d, hd, by simpa using hurl, (matchValue_isSome_iff tail).1 ⟨g, hv⟩⟩

/-- The regular expression finds the leftmost occurrence of the parameter: its
result is the group matched at that occurrence. -/
theorem regexExec_first (name : Str) (h : PlainName name) (pre url tail : Str)
    (hf : FirstOccurrence name url pre tail) : regexExec name url = matchValue tail := by
  induction pre generalizing url with
  | nil =>
    have hm := matchHere_of_occurs name h url tail hf.1
    obtain ⟨g, hg⟩ := (matchValue_isSome_iff tail).2 hf.1.choose_spec.2.2
    obtain ⟨d, -, hurl, -⟩ := hf.1
    rw [hurl] at hm ⊢
    simp only [List.nil_append] at hm ⊢
    simp [regexExec, hm, hg]
  | cons c pre' ih =>
    obtain ⟨⟨d, hd, hurl, hdel⟩, hmin⟩ := hf
    have hnone : matchHere name url = none := by
      cases hm : matchHere name url with
      | none => rfl
      | some g =>
        obtain ⟨tail', ho⟩ := occurs_of_matchHere name h url g hm
        have := hmin [] tail' ho
        simp at this
    have hfirst : FirstOccurrence name (pre' ++ d :: (name ++ tail)) pre' tail := by
      refine ⟨⟨d, hd, rfl, hdel⟩, ?_⟩
      rintro pre'' tail'' ⟨d', hd', hurl', hdel'⟩
      have := hmin (c :: pre'') tail'' ⟨d', hd', by rw [hurl, List.cons_append, hurl']; rfl, hdel'⟩
      simpa using this
    rw [hurl] at hnone ⊢
    simp only [List.cons_append] at hnone ⊢
    rw [regexExec, hnone]
    exact ih _ hfirst

/-- With no occurrence of the parameter in the text there is no match. -/
theorem regexExec_absent (name : Str) (h : PlainName name) (url : Str)
    (ha : ∀ pre tail, ¬ OccursAt name url pre tail) : regexExec name url = none := by
  induction url with
  | nil => rfl
  | cons c rest ih =>
    have hnone : matchHere name (c :: rest) = none := by
      cases hm : matchHere name (c :: rest) with
      | none => rfl
      | some g =>
        obtain ⟨tail', ho⟩ := occurs_of_matchHere name h _ g hm
        exact absurd ho (ha [] tail')
    rw [regexExec, hnone]
    refine ih ?_
    rintro pre tail ⟨d, hd, hurl, hdel⟩
    exact ha (c :: pre) tail ⟨d, hd, by rw [hurl]; rfl, hdel⟩

theorem takeWhile_value (v rest : Str) (hv : ∀ c ∈ v, c ≠ '&' ∧ c ≠ '#') (hr : ValueEnds rest) :
    (v ++ rest).takeWhile (fun d => decide (d ≠ '&' ∧ d ≠ '#')) = v := by
  induction v with
  | nil =>
    rcases hr with hr | ⟨c, r, hr, hc⟩
    · simp [hr]
    · rcases hc with hc | hc <;> simp [hr, hc]
  | cons c cs ih =>
    have hc := hv c (by simp)
    have ih' := ih (fun d hd => hv d (by simp [hd]))
    have hd : decide (c ≠ '&' ∧ c ≠ '#') = true := by simp [hc.1, hc.2]
    rw [List.cons_append, List.takeWhile_cons, hd, ih']
    rfl

/-! ## Decoding: fuel and `%`-free texts -/

theorem readEscape_length (s r : Str) (b : Nat) (h : readEscape s = some (b, r)) :
    r.length + 3 = s.length := by
  match s, h with
  | p :: x :: y :: rest, h =>
    simp only [readEscape] at h
    split at h
    · cases hp : parseHexOctet x y with
      | none => simp [hp] at h
      | some o =>
        simp only [hp, Option.map_some', Option.some.injEq, Prod.mk.injEq] at h
        simp [← h.2]
    · cases h

theorem decodeStep_length (c d : Char) (rest rest' : Str)
    (h : decodeStep c rest = .ok (d, rest')) : rest'.length ≤ rest.length := by
  unfold decodeStep at h
  split at h
  · simp only [Except.ok.injEq, Prod.mk.injEq] at h
    simp [h.2]
  · split at h
    · cases h
    · rename_i b0 r0 h0
      have l0 := readEscape_length _ _ _ h0
      simp only [List.length_cons] at l0
      split at h
      · simp only [Except.ok.injEq, Prod.mk.injEq] at h
        rw [← h.2]; omega
      · split at h
        · cases h
        · split at h
          · split at h
            · cases h
            · rename_i b1 r1 h1
              have l1 := readEscape_length _ _ _ h1
              split at h
              · cases h
              · simp only [Except.ok.injEq, Prod.mk.injEq] at h
                rw [← h.2]; omega
          · split at h
            · split at h
              · cases h
              · rename_i b1 r1 h1
                have l1 := readEscape_length _ _ _ h1
                split at h
                · cases h
                · rename_i b2 r2 h2
                  have l2 := readEscape_length _ _ _ h2
                  split at h
                  · cases h
                  · simp only [Except.ok.injEq, Prod.mk.injEq] at h
                    rw [← h.2]; omega
            · split at h
              · split at h
                · cases h
                · rename_i b1 r1 h1
                  have l1 := readEscape_length _ _ _ h1
                  split at h
                  · cases h
                  · rename_i b2 r2 h2
                    have l2 := readEscape_length _ _ _ h2
                    split at h
                    · cases h
                    · rename_i b3 r3 h3
                      have l3 := readEscape_length _ _ _ h3
                      split at h
                      · cases h
                      · simp only [Except.ok.injEq, Prod.mk.injEq] at h
                        rw [← h.2]; omega
              · cases h

/-- The loop does not depend on its fuel once the fuel covers the length of the
string: it never stops for lack of fuel. -/
theorem decodeLoop_fuel (n m : Nat) (s : Str) (hn : s.length ≤ n) (hm : s.length ≤ m) :
    decodeLoop n s = decodeLoop m s := by
  induction n generalizing m s with
  | zero =>
    have : s = [] := List.length_eq_zero.mp (Nat.le_zero.mp hn)
    subst this
    cases m <;> rfl
  | succ n ih =>
    cases s with
    | nil => cases m <;> rfl
    | cons c rest =>
      cases m with
      | zero => simp at hm
      | succ m =>
        simp only [decodeLoop]
        cases hstep : decodeStep c rest with
        | error e => rfl
        | ok pr =>
          obtain ⟨d, rest'⟩ := pr
          have hl := decodeStep_length c d rest rest' hstep
          simp only [List.length_cons] at hn hm
          simp only []
          rw [ih m rest' (by omega) (by omega)]

theorem decodeLoop_no_percent (s : Str) (h : '%' ∉ s) (n : Nat) (hn : s.length ≤ n) :
    decodeLoop n s = .ok s := by
  induction s generalizing n with
  | nil => cases n <;> rfl
  | cons c cs ih =>
    cases n with
    | zero => simp at hn
    | succ n =>
      have hc : c ≠ '%' := fun hc => h (by simp [hc])
      have hcs : '%' ∉ cs := fun hcs => h (by simp [hcs])
      simp only [List.length_cons] at hn
      simp [decodeLoop, decodeStep, hc, ih hcs n (by omega)]

theorem decodeURIComponent_no_percent (s : Str) (h : '%' ∉ s) :
    decodeURIComponent s = .ok s :=
  decodeLoop_no_percent s h s.length (Nat.le_refl _)

/-! ## Decoding what `encodeURIComponent` writes -/

theorem hexValue_hexDigit (n : Nat) (h : n < 16) : hexValue (hexDigit n) = some n := by
  interval_cases n <;> decide

theorem readEscape_escapeOctet (b : Nat) (h : b < 256) (rest : Str) :
    readEscape ('%' :: hexDigit (b / 16) :: hexDigit (b % 16) :: rest) = some (b, rest) := by
  have h1 := hexValue_hexDigit (b / 16) (by omega)
  have h2 := hexValue_hexDigit (b % 16) (by omega)
  have h3 : 16 * (b / 16) + b % 16 = b := by omega
  simp [readEscape, parseHexOctet, h1, h2, h3]

theorem char_range (c : Char) :
    c.toNat < 0xD800 ∨ (0xDFFF < c.toNat ∧ c.toNat < 0x110000) :=
  c.valid

theorem decodeStep_one (b0 : Nat) (h0 : b0 < 0x80) (rest : Str) :
    decodeStep '%' (hexDigit (b0 / 16) :: hexDigit (b0 % 16) :: rest)
      = .ok (Char.ofNat b0, rest) := by
  simp [decodeStep, readEscape_escapeOctet b0 (by omega), h0]

theorem decodeStep_two (v : Nat) (h1 : 0x80 ≤ v) (h2 : v < 0x800) (rest : Str) :
    decodeStep '%' (hexDigit ((0xC0 + v / 0x40) / 16) :: hexDigit ((0xC0 + v / 0x40) % 16)
        :: '%' :: hexDigit ((0x80 + v % 0x40) / 16) :: hexDigit ((0x80 + v % 0x40) % 16) :: rest)
      = .ok (Char.ofNat v, rest) := by
  have e0 := readEscape_escapeOctet (0xC0 + v / 0x40) (by omega)
  have e1 := readEscape_escapeOctet (0x80 + v % 0x40) (by omega)
  have hv : utf8Decode2 (0xC0 + v / 0x40) (0x80 + v % 0x40) = some v := by
    have a : (0xC0 + v / 0x40) % 0x20 * 0x40 + (0x80 + v % 0x40) % 0x40 = v := by omega
    have b : 0x80 ≤ 0x80 + v % 0x40 := by omega
    have c : 0x80 + v % 0x40 < 0xC0 := by omega
    simp only [utf8Decode2, isContinuation, a]
    simp [b, c, h1]
  have n1 : ¬ (0xC0 + v / 0x40 < 0x80) := by omega
  have n2 : ¬ (0xC0 + v / 0x40 < 0xC0) := by omega
  have n3 : 0xC0 + v / 0x40 < 0xE0 := by omega
  simp only [decodeStep, ne_eq, not_true_eq_false, if_false, e0, e1, n1, n2, n3, if_true, hv]

theorem decodeStep_three (v : Nat) (h1 : 0x800 ≤ v) (h2 : v < 0x10000)
    (h3 : ¬ (0xD800 ≤ v ∧ v ≤ 0xDFFF)) (rest : Str) :
    decodeStep '%' (hexDigit ((0xE0 + v / 0x1000) / 16) :: hexDigit ((0xE0 + v / 0x1000) % 16)
        :: '%' :: hexDigit ((0x80 + v / 0x40 % 0x40) / 16)
        :: hexDigit ((0x80 + v / 0x40 % 0x40) % 16)
        :: '%' :: hexDigit ((0x80 + v % 0x40) / 16) :: hexDigit ((0x80 + v % 0x40) % 16) :: rest)
      = .ok (Char.ofNat v, rest) := by
  have e0 := readEscape_escapeOctet (0xE0 + v / 0x1000) (by omega)
  have e1 := readEscape_escapeOctet (0x80 + v / 0x40 % 0x40) (by omega)
  have e2 := readEscape_escapeOctet (0x80 + v % 0x40) (by omega)
  have hv : utf8Decode3 (0xE0 + v / 0x1000) (0x80 + v / 0x40 % 0x40) (0x80 + v % 0x40)
      = some v := by
    have a : (0xE0 + v / 0x1000) % 0x10 * 0x1000 + (0x80 + v / 0x40 % 0x40) % 0x40 * 0x40
        + (0x80 + v % 0x40) % 0x40 = v := by omega
    have b : 0x80 ≤ 0x80 + v % 0x40 := by omega
    have c : 0x80 + v % 0x40 < 0xC0 := by omega
    have b' : 0x80 ≤ 0x80 + v / 0x40 % 0x40 := by omega
    have c' : 0x80 + v / 0x40 % 0x40 < 0xC0 := by omega
    simp only [utf8Decode3, isContinuation, a]
    simp only [b, c, b', c', h1, decide_True, Bool.and_self, Bool.and_true, Bool.true_and]
    have d : (decide (0xD800 ≤ v) && decide (v ≤ 0xDFFF)) = false := by
      simpa using fun h => by omega
    simp [d]
  have n1 : ¬ (0xE0 + v / 0x1000 < 0x80) := by omega
  have n2 : ¬ (0xE0 + v / 0x1000 < 0xC0) := by omega
  have n3 : ¬ (0xE0 + v / 0x1000 < 0xE0) := by omega
  have n4 : 0xE0 + v / 0x1000 < 0xF0 := by omega
  simp only [decodeStep, ne_eq, not_true_eq_false, if_false, e0, e1, e2, n1, n2, n3, n4,
    if_true, hv]

theorem decodeStep_four (v : Nat) (h1 : 0x10000 ≤ v) (h2 : v < 0x110000) (rest : Str) :
    decodeStep '%' (hexDigit ((0xF0 + v / 0x40000) / 16) :: hexDigit ((0xF0 + v / 0x40000) % 16)
        :: '%' :: hexDigit ((0x80 + v / 0x1000 % 0x40) / 16)
        :: hexDigit ((0x80 + v / 0x1000 % 0x40) % 16)
        :: '%' :: hexDigit ((0x80 + v / 0x40 % 0x40) / 16)
        :: hexDigit ((0x80 + v / 0x40 % 0x40) % 16)
        :: '%' :: hexDigit ((0x80 + v % 0x40) / 16) :: hexDigit ((0x80 + v % 0x40) % 16) :: rest)
      = .ok (Char.ofNat v, rest) := by
  have e0 := readEscape_escapeOctet (0xF0 + v / 0x40000) (by omega)
  have e1 := readEscape_escapeOctet (0x80 + v / 0x1000 % 0x40) (by omega)
  have e2 := readEscape_escapeOctet (0x80 + v / 0x40 % 0x40) (by omega)
  have e3 := readEscape_escapeOctet (0x80 + v % 0x40) (by omega)
  have hv : utf8Decode4 (0xF0 + v / 0x40000) (0x80 + v / 0x1000 % 0x40)
      (0x80 + v / 0x40 % 0x40) (0x80 + v % 0x40) = some v := by
    have a : (0xF0 + v / 0x40000) % 0x8 * 0x40000 + (0x80 + v / 0x1000 % 0x40) % 0x40 * 0x1000
        + (0x80 + v / 0x40 % 0x40) % 0x40 * 0x40 + (0x80 + v % 0x40) % 0x40 = v := by omega
    have b : 0x80 ≤ 0x80 + v % 0x40 := by omega
    have c : 0x80 + v % 0x40 < 0xC0 := by omega
    have b' : 0x80 ≤ 0x80 + v / 0x40 % 0x40 := by omega
    have c' : 0x80 + v / 0x40 % 0x40 < 0xC0 := by omega
    have b'' : 0x80 ≤ 0x80 + v / 0x1000 % 0x40 := by omega
    have c'' : 0x80 + v / 0x1000 % 0x40 < 0xC0 := by omega
    have d : v ≤ 0x10FFFF := by omega
    simp only [utf8Decode4, isContinuation, a]
    simp [b, c, b', c', b'', c'', h1, d]
  have n1 : ¬ (0xF0 + v / 0x40000 < 0x80) := by omega
  have n2 : ¬ (0xF0 + v / 0x40000 < 0xC0) := by omega
  have n3 : ¬ (0xF0 + v / 0x40000 < 0xE0) := by omega
  have n4 : ¬ (0xF0 + v / 0x40000 < 0xF0) := by omega
  have n5 : 0xF0 + v / 0x40000 < 0xF8 := by omega
  simp only [decodeStep, ne_eq, not_true_eq_false, if_false, e0, e1, e2, e3, n1, n2, n3, n4, n5,
    if_true, hv]

theorem unreserved_ne_percent (c : Char) (h : isUnreserved c = true) : c ≠ '%' := by
  intro hc
  subst hc
  exact absurd h (by decide)

/-- One step of `Decode` reads back the character that `encodeChar` wrote. -/
theorem decodeStep_encodeChar (c : Char) (rest : Str) :
    match encodeChar c ++ rest with
    | [] => False
    | h :: t => decodeStep h t = .ok (c, rest) := by
  by_cases hu : isUnreserved c = true
  · simp [encodeChar, hu, decodeStep, unreserved_ne_percent c hu]
  · have hr := char_range c
    have hc : Char.ofNat c.toNat = c := Char.ofNat_toNat c
    by_cases h1 : c.toNat < 0x80
    · have := decodeStep_one c.toNat h1 rest
      rw [hc] at this
      simpa only [encodeChar, hu, utf8Encode, h1, if_false, if_true, escapeOctet,
        List.flatMap_cons, List.flatMap_nil, List.append_nil, List.cons_append,
        List.nil_append] using this
    · by_cases h2 : c.toNat < 0x800
      · have := decodeStep_two c.toNat (by omega) h2 rest
        rw [hc] at this
        simpa only [encodeChar, hu, utf8Encode, h1, h2, if_false, if_true, escapeOctet,
          List.flatMap_cons, List.flatMap_nil, List.append_nil, List.cons_append,
          List.nil_append] using this
      · by_cases h3 : c.toNat < 0x10000
        · have := decodeStep_three c.toNat (by omega) h3 (by omega) rest
          rw [hc] at this
          simpa only [encodeChar, hu, utf8Encode, h1, h2, h3, if_false, if_true, escapeOctet,
            List.flatMap_cons, List.flatMap_nil, List.append_nil, List.cons_append,
            List.nil_append] using this
        · have := decodeStep_four c.toNat (by omega) (by omega) rest
          rw [hc] at this
          simpa only [encodeChar, hu, utf8Encode, h1, h2, h3, if_false, escapeOctet,
            List.flatMap_cons, List.flatMap_nil, List.append_nil, List.cons_append,
            List.nil_append] using this

theorem decodeLoop_encode (v : Str) (n : Nat) (hn : (encodeURIComponent v).length ≤ n) :
    decodeLoop n (encodeURIComponent v) = .ok v := by
  induction v generalizing n with
  | nil => cases n <;> rfl
  | cons c cs ih =>
    have hstep := decodeStep_encodeChar c (encodeURIComponent cs)
    have hsplit : encodeURIComponent (c :: cs) = encodeChar c ++ encodeURIComponent cs := by
      simp [encodeURIComponent]
    rw [hsplit] at hn ⊢
    cases he : encodeChar c ++ encodeURIComponent cs with
    | nil => simp [he] at hstep
    | cons h t =>
      simp only [he] at hstep
      have hlen : (encodeURIComponent cs).length ≤ t.length := by
        have := decodeStep_length h c t _ hstep
        exact this
      rw [he] at hn
      cases n with
      | zero => simp at hn
      | succ n =>
        simp only [List.length_cons] at hn
        simp only [decodeLoop, hstep]
        rw [ih n (by omega)]

/-- Decoding what `encodeURIComponent` writes gives the string back. -/
theorem decode_encode (v : Str) : decodeURIComponent (encodeURIComponent v) = .ok v :=
  decodeLoop_encode v _ (Nat.le_refl _)

theorem hexDigit_not_special (n : Nat) (h : n < 16) :
    hexDigit n ≠ '+' ∧ hexDigit n ≠ '&' ∧ hexDigit n ≠ '#' := by
  interval_cases n <;> decide

theorem utf8Encode_lt (v : Nat) (hv : v < 0x110000) : ∀ b ∈ utf8Encode v, b < 256 := by
  intro b hb
  unfold utf8Encode at hb
  split at hb
  · simp only [List.mem_singleton] at hb
    omega
  · split at hb
    · simp only [List.mem_cons, List.mem_singleton, List.not_mem_nil, or_false] at hb
      omega
    · split at hb
      · simp only [List.mem_cons, List.mem_singleton, List.not_mem_nil, or_false] at hb
        omega
      · simp only [List.mem_cons, List.mem_singleton, List.not_mem_nil, or_false] at hb
        omega

theorem encodeChar_not_special (c x : Char) (hx : x ∈ encodeChar c) :
    x ≠ '+' ∧ x ≠ '&' ∧ x ≠ '#' := by
  unfold encodeChar at hx
  split at hx
  · rename_i hu
    simp only [List.mem_singleton] at hx
    subst hx
    refine ⟨?_, ?_, ?_⟩ <;> intro hc <;> subst hc <;> exact absurd hu (by decide)
  · simp only [List.mem_flatMap] at hx
    obtain ⟨b, hb, hxb⟩ := hx
    have hlt := utf8Encode_lt c.toNat (by have := char_range c; omega) b hb
    simp only [escapeOctet, List.mem_cons, List.mem_singleton, List.not_mem_nil, or_false] at hxb
    rcases hxb with hxb | hxb | hxb
    · subst hxb
      decide
    · subst hxb
      exact hexDigit_not_special _ (by omega)
    · subst hxb
      exact hexDigit_not_special _ (by omega)

theorem encode_not_special (v : Str) :
    ∀ x ∈ encodeURIComponent v, x ≠ '+' ∧ x ≠ '&' ∧ x ≠ '#' := by
  intro x hx
  simp only [encodeURIComponent, List.mem_flatMap] at hx
  obtain ⟨c, -, hxc⟩ := hx
  exact encodeChar_not_special c x hxc

theorem plusToSpace_no_plus (s : Str) (h : ∀ x ∈ s, x ≠ '+') : plusToSpace s = s := by
  induction s with
  | nil => rfl
  | cons c cs ih =>
    have hc : c ≠ '+' := h c (by simp)
    have := ih (fun x hx => h x (by simp [hx]))
    simp only [plusToSpace] at this ⊢
    simp [hc, this]

/-! ## The trailing path segment: `getShareCode` and `tryOpenApp` -/

theorem getShareCode_of_final (path c : Str) (h : IsFinalSegment path c) :
    getShareCode path = if c ≠ [] ∧ c ≠ ['p'] then some c else none := by
  simp only [getShareCode, lastPart_of_final path c h]
  by_cases h1 : c = [] <;> by_cases h2 : c = ['p'] <;> simp [h1, h2]

theorem tryOpenApp_eq (p : Page) :
    tryOpenApp p =
      match getShareCode p.pathname with
      | none => p
      | some code =>
        { p with
          consoleLog := p.consoleLog ++ [["Intentando abrir:".toList, deepLink code p.search]]
          navigations := p.navigations ++ [deepLink code p.search]
          timers := p.timers ++ [(2500,
            "Si la app no se abre, usa el código de arriba para importar manualmente.".toList)] } := by
  unfold tryOpenApp getShareCode
  cases lastPart p.pathname with
  | none => rfl
  | some code =>
    by_cases h : code ≠ [] ∧ code ≠ ['p'] ∧ code ≠ []
    · simp only [if_pos h]
    · simp only [if_neg h]

/-- C4. Deep-link construction in `tryOpenApp`: when the final `/`-separated
segment `c` of the pathname is non-empty and is not `p`, the URL navigated to is
exactly `calendario://app/p/` followed by `c` and by `window.location.search`
unchanged; the segment is embedded as it is, a `share_` prefix included. -/
theorem tryOpenApp_deep_link (p : Page) (c : Str) (hc : IsFinalSegment p.pathname c)
    (hne : c ≠ []) (hp : c ≠ ['p']) :
    (tryOpenApp p).navigations = p.navigations ++ ["calendario://app/p/".toList ++ c ++ p.search] := by
  rw [tryOpenApp_eq, getShareCode_of_final p.pathname c hc]
  simp [hne, hp, deepLink]

theorem tryOpenApp_deep_link_witness :
    (tryOpenApp (freshPage "https://h/p/share_ab?x=1%20&y".toList "/p/share_ab".toList
        "?x=1%20&y".toList [])).navigations
      = ["calendario://app/p/share_ab?x=1%20&y".toList] := by
  have h := tryOpenApp_deep_link
    (freshPage "https://h/p/share_ab?x=1%20&y".toList "/p/share_ab".toList "?x=1%20&y".toList [])
    "share_ab".toList ⟨by decide, Or.inr ⟨"/p".toList, by decide⟩⟩ (by decide) (by decide)
  simpa [freshPage] using h

/-- C6, as stated, fails: for the pathname `/p/abc/` the last non-empty segment is
`abc`, and `getShareCode` returns `null`. -/
theorem getShareCode_trailing_slash :
    ((split '/' "/p/abc/".toList).filter (fun part => part ≠ [])).getLast? = some "abc".toList
      ∧ getShareCode "/p/abc/".toList = none := by
  decide

/-- C6, amended. `getShareCode` looks at the final `/`-separated segment of the
pathname only (every pathname has one): it returns that segment when it is
non-empty and is not `p`, and `null` otherwise, so also for a pathname that ends
in `/`. -/
theorem getShareCode_final_segment (path : Str) :
    (∃ c, IsFinalSegment path c) ∧
      ∀ c, IsFinalSegment path c →
        getShareCode path = if c ≠ [] ∧ c ≠ ['p'] then some c else none :=
  ⟨final_segment_exists path, fun c h => getShareCode_of_final path c h⟩

theorem getShareCode_final_segment_witness :
    getShareCode "/p/abc".toList = some "abc".toList ∧ getShareCode "/p/abc/".toList = none := by
  have h1 := (getShareCode_final_segment "/p/abc".toList).2 "abc".toList
    ⟨by decide, Or.inr ⟨"/p".toList, by decide⟩⟩
  have h2 := (getShareCode_final_segment "/p/abc/".toList).2 []
    ⟨by decide, Or.inr ⟨"/p/abc".toList, by decide⟩⟩
  exact ⟨by simpa using h1, by simpa using h2⟩

/-- C10. `tryOpenApp` and `getShareCode` agree on the trailing segment: without a
share code `tryOpenApp` navigates nowhere, and with a share code `c` it navigates
once, to the deep link that embeds `c`; `c` is never empty, never `p` and has no
`/`, so no deep link with an empty code is produced. -/
theorem tryOpenApp_agrees_with_getShareCode (p : Page) :
    (getShareCode p.pathname = none → (tryOpenApp p).navigations = p.navigations) ∧
      ∀ c, getShareCode p.pathname = some c →
        (tryOpenApp p).navigations = p.navigations ++ ["calendario://app/p/".toList ++ c ++ p.search]
          ∧ c ≠ [] ∧ c ≠ ['p'] ∧ '/' ∉ c := by
  refine ⟨fun h => by rw [tryOpenApp_eq, h], fun c h => ?_⟩
  refine ⟨by rw [tryOpenApp_eq, h]; simp [deepLink], ?_⟩
  unfold getShareCode at h
  cases hl : lastPart p.pathname with
  | none => simp [hl] at h
  | some code =>
    simp only [hl] at h
    split at h
    · rename_i hcond
      simp only [Option.some.injEq] at h
      subst h
      exact ⟨hcond.1, hcond.2.1, lastPart_no_slash _ _ hl⟩
    · cases h

theorem tryOpenApp_agrees_with_getShareCode_witness :
    (tryOpenApp (freshPage [] "/p/".toList [] [])).navigations = [] ∧
      (tryOpenApp (freshPage [] "/p/abc".toList "?a=b".toList [])).navigations
        = ["calendario://app/p/abc?a=b".toList] := by
  have h1 := (tryOpenApp_agrees_with_getShareCode (freshPage [] "/p/".toList [] [])).1 (by decide)
  have h2 := ((tryOpenApp_agrees_with_getShareCode
    (freshPage [] "/p/abc".toList "?a=b".toList [])).2 "abc".toList (by decide)).1
  exact ⟨by simpa [freshPage] using h1, by simpa [freshPage] using h2⟩

/-! ## The share code shown on load -/

theorem replaceFirst_prefix (pat r : Str) (hpat : pat ≠ []) :
    replaceFirst pat [] (pat ++ r) = r := by
  cases pat with
  | nil => exact absurd rfl hpat
  | cons c cs =>
    have hpre : (c :: cs).isPrefixOf (c :: (cs ++ r)) = true := by
      rw [← List.cons_append]
      exact List.isPrefixOf_iff_prefix.mpr (List.prefix_append _ _)
    simp only [List.cons_append, replaceFirst, hpre, if_true, List.nil_append]
    simp

theorem tryOpenApp_keeps_share_code (p : Page) :
    (tryOpenApp p).shareCodeText = p.shareCodeText ∧
      (tryOpenApp p).shareCodeContainerDisplay = p.shareCodeContainerDisplay ∧
      (tryOpenApp p).resetContainerDisplay = p.resetContainerDisplay := by
  rw [tryOpenApp_eq]
  cases getShareCode p.pathname <;> simp

theorem showShareCode_keeps_reset (p : Page) :
    (showShareCode p).resetContainerDisplay = p.resetContainerDisplay ∧
      (showShareCode p).pathname = p.pathname := by
  unfold showShareCode
  cases getShareCode p.pathname with
  | none => simp
  | some c =>
    simp only []
    split <;> exact ⟨rfl, rfl⟩

theorem showShareCode_of_share (p : Page) (r : Str)
    (hr : IsFinalSegment p.pathname ("share_".toList ++ r)) :
    (showShareCode p).shareCodeText = r ∧
      (showShareCode p).shareCodeContainerDisplay = "block".toList := by
  have hg : getShareCode p.pathname = some ("share_".toList ++ r) := by
    rw [getShareCode_of_final _ _ hr]
    have h1 : "share_".toList ++ r ≠ [] := by simp
    have h2 : "share_".toList ++ r ≠ ['p'] := by
      intro h
      have hh : ("share_".toList ++ r).head? = some 's' := rfl
      rw [h] at hh
      exact absurd hh (by decide)
    simp only [h1, h2, ne_eq, not_false_eq_true, and_self, if_true]
  have hpre : "share_".toList.isPrefixOf ("share_".toList ++ r) = true :=
    List.isPrefixOf_iff_prefix.mpr (List.prefix_append _ _)
  have hrep := replaceFirst_prefix "share_".toList r (by decide)
  exact ⟨by simp only [showShareCode, hg, hpre, if_true, hrep],
    by simp only [showShareCode, hg, hpre, if_true]⟩

theorem showShareCode_of_other (p : Page) (s : Str) (hs : IsFinalSegment p.pathname s)
    (hpre : ¬ "share_".toList <+: s) : showShareCode p = p := by
  have hpre' : "share_".toList.isPrefixOf s = false := by
    cases hb : "share_".toList.isPrefixOf s with
    | false => rfl
    | true => exact absurd (List.isPrefixOf_iff_prefix.mp hb) hpre
  unfold showShareCode
  rw [getShareCode_of_final _ _ hs]
  split
  · rfl
  · rename_i c hc
    split at hc
    · simp only [Option.some.injEq] at hc
      subst hc
      simp only [hpre', Bool.false_eq_true, if_false]
    · cases hc

/-- The load handler when both parameter reads return: the reset form for a
pending password reset, the share code and the app hand-off otherwise. -/
theorem onLoad_of_reads (p : Page) (mode code : Option Str)
    (hm : getParameterByName p.href "mode".toList = .ok mode)
    (hc : getParameterByName p.href "oobCode".toList = .ok code) :
    onLoad p =
      if mode = some "resetPassword".toList ∧ ∃ a, code = some a ∧ a ≠ [] then showResetForm p
      else tryOpenApp (showShareCode p) := by
  have hiff : (mode = some "resetPassword".toList ∧ code ≠ none ∧ code ≠ some []) ↔
      (mode = some "resetPassword".toList ∧ ∃ a, code = some a ∧ a ≠ []) := by
    constructor
    · rintro ⟨hmode, h1, h2⟩
      refine ⟨hmode, ?_⟩
      cases code with
      | none => exact absurd rfl h1
      | some a => exact ⟨a, rfl, fun ha => h2 (by rw [ha])⟩
    · rintro ⟨hmode, a, hcode, ha⟩
      refine ⟨hmode, by simp [hcode], ?_⟩
      rw [hcode]
      intro h
      exact ha (Option.some.inj h)
  simp only [onLoad, hm, hc]
  by_cases hcond : mode = some "resetPassword".toList ∧ ∃ a, code = some a ∧ a ≠ []
  · rw [if_pos hcond, if_pos (hiff.2 hcond)]
  · rw [if_neg hcond, if_neg (fun h => hcond (hiff.1 h))]

/-- C5, as stated, fails: on the password-reset link
`https://h/p/share_abc?mode=resetPassword&oobCode=X1` the trailing path segment
`share_abc` starts with `share_`, and the load handler writes nothing to the
share-code element and does not show its container: it returns from the reset
branch before the share-code branch. -/
theorem onLoad_reset_link_skips_share_code :
    getShareCode "/p/share_abc".toList = some "share_abc".toList ∧
      (onLoad (freshPage "https://h/p/share_abc?mode=resetPassword&oobCode=X1".toList
        "/p/share_abc".toList "?mode=resetPassword&oobCode=X1".toList [])).shareCodeText = [] ∧
      (onLoad (freshPage "https://h/p/share_abc?mode=resetPassword&oobCode=X1".toList
        "/p/share_abc".toList "?mode=resetPassword&oobCode=X1".toList [])).shareCodeText
          ≠ "abc".toList ∧
      (onLoad (freshPage "https://h/p/share_abc?mode=resetPassword&oobCode=X1".toList
        "/p/share_abc".toList "?mode=resetPassword&oobCode=X1".toList [])).shareCodeContainerDisplay
          = [] := by
  decide

/-- C5, amended. Share-code prefix stripping on page load. On every URL on which
the reads of `mode` and `oobCode` both return and which is not a password-reset
link (`mode` equal to `resetPassword` with a non-empty `oobCode`): when the
trailing path segment is `share_` followed by `r`, the load handler writes exactly
`r` to the share-code element (one occurrence of the prefix is removed, later
ones stay) and shows its container. On every URL: when the trailing segment does
not start with `share_`, the share-code text and container are left as they
were. On a password-reset link, and when one of the two reads raises, the
handler leaves the share-code text and container as they were, whatever the
trailing segment. -/
theorem share_code_prefix_stripped (p : Page) :
    (∀ r mode code, IsFinalSegment p.pathname ("share_".toList ++ r) →
        getParameterByName p.href "mode".toList = .ok mode →
        getParameterByName p.href "oobCode".toList = .ok code →
        ¬ (mode = some "resetPassword".toList ∧ ∃ a, code = some a ∧ a ≠ []) →
        (onLoad p).shareCodeText = r ∧
        (onLoad p).shareCodeContainerDisplay = "block".toList) ∧
      (∀ s, IsFinalSegment p.pathname s → ¬ "share_".toList <+: s →
        (onLoad p).shareCodeText = p.shareCodeText ∧
        (onLoad p).shareCodeContainerDisplay = p.shareCodeContainerDisplay) ∧
      (∀ mode code, getParameterByName p.href "mode".toList = .ok mode →
        getParameterByName p.href "oobCode".toList = .ok code →
        (mode = some "resetPassword".toList ∧ ∃ a, code = some a ∧ a ≠ []) →
        (onLoad p).shareCodeText = p.shareCodeText ∧
        (onLoad p).shareCodeContainerDisplay = p.shareCodeContainerDisplay) ∧
      (((∃ e, getParameterByName p.href "mode".toList = .error e) ∨
          (∃ e, getParameterByName p.href "oobCode".toList = .error e)) →
        (onLoad p).shareCodeText = p.shareCodeText ∧
        (onLoad p).shareCodeContainerDisplay = p.shareCodeContainerDisplay) := by
  refine ⟨fun r mode code hr hm hc hnr => ?_, fun s hs hpre => ?_,
    fun mode code hm hc hreset => ?_, fun herr => ?_⟩
  · rw [onLoad_of_reads p mode code hm hc, if_neg hnr,
      (tryOpenApp_keeps_share_code _).1, (tryOpenApp_keeps_share_code _).2.1]
    exact showShareCode_of_share p r hr
  · have hshow := showShareCode_of_other p s hs hpre
    unfold onLoad
    split
    · exact ⟨rfl, rfl⟩
    · split
      · exact ⟨rfl, rfl⟩
      · split
        · exact ⟨rfl, rfl⟩
        · rw [hshow]
          exact ⟨(tryOpenApp_keeps_share_code p).1, (tryOpenApp_keeps_share_code p).2.1⟩
  · rw [onLoad_of_reads p mode code hm hc, if_pos hreset]
    exact ⟨rfl, rfl⟩
  · unfold onLoad
    split
    · exact ⟨rfl, rfl⟩
    · rename_i mode hm
      split
      · exact ⟨rfl, rfl⟩
      · rename_i code hc
        rcases herr with ⟨e, he⟩ | ⟨e, he⟩
        · rw [hm] at he
          cases he
        · rw [hc] at he
          cases he

theorem share_code_prefix_stripped_witness :
    (onLoad (freshPage "https://h/p/share_share_x?mode=view&oobCode=X1".toList
        "/p/share_share_x".toList "?mode=view&oobCode=X1".toList [])).shareCodeText
        = "share_x".toList ∧
      (onLoad (freshPage "https://h/p/xshare_y?mode=view".toList
        "/p/xshare_y".toList "?mode=view".toList [])).shareCodeText = [] := by
  have h1 := ((share_code_prefix_stripped
    (freshPage "https://h/p/share_share_x?mode=view&oobCode=X1".toList
      "/p/share_share_x".toList "?mode=view&oobCode=X1".toList [])).1
    "share_x".toList (some "view".toList) (some "X1".toList)
    ⟨by decide, Or.inr ⟨"/p".toList, by decide⟩⟩ (by decide) (by decide) (by decide)).1
  have h2 := ((share_code_prefix_stripped
    (freshPage "https://h/p/xshare_y?mode=view".toList
      "/p/xshare_y".toList "?mode=view".toList [])).2.1
    "xshare_y".toList ⟨by decide, Or.inr ⟨"/p".toList, by decide⟩⟩ (by decide)).1
  exact ⟨h1, h2⟩

/-! ## The password reset -/

/-- C8. Outcome handling of the password reset. When `auth.confirmPasswordReset`
succeeds, the message text is updated and the reset-password form is hidden. When
it fails with an error of message `m`, the alert shown is `Error: ` followed by
`m` in full and unaltered, and the message text and the visibility of the form
(every element of the page) stay as they were. -/
theorem reset_outcome (p : Page) (m : Str) :
    (resetSettled .fulfilled p).message = "✅ Contraseña actualizada.".toList ∧
      (resetSettled .fulfilled p).resetContainerDisplay = "none".toList ∧
      (resetSettled (.rejected m) p).alerts = p.alerts ++ ["Error: ".toList ++ m] ∧
      resetSettled (.rejected m) p
        = { p with alerts := (resetSettled (.rejected m) p).alerts } ∧
      (resetSettled (.rejected m) p).message = p.message ∧
      (resetSettled (.rejected m) p).resetContainerDisplay = p.resetContainerDisplay := by
  simp [resetSettled]

/-- C3, as stated, fails: with the URL `https://h/p?oobCode=%` and the new
password `abc`, of length 3, `handleResetPassword` shows no alert: the read of
`oobCode`, which comes before the checks, raises `URIError`. -/
theorem handleResetPassword_no_alert :
    jsLength "abc".toList < 6 ∧
      (handleResetPassword (freshPage "https://h/p?oobCode=%".toList "/p".toList
        "?oobCode=%".toList "abc".toList)).alerts = [] ∧
      (handleResetPassword (freshPage "https://h/p?oobCode=%".toList "/p".toList
        "?oobCode=%".toList "abc".toList)).uncaught = [JsError.uriError] := by
  decide

/-- C3, amended. For every URL, a new password of length below 6 (the empty one
included) never leads to a call of `auth.confirmPasswordReset`. For every URL on
which the read of `oobCode` returns `a` (a string, or `null` when the parameter
is absent): a password of length below 6 shows one alert and makes no call, and a
password of length 6 or more makes exactly one call, with `a` as action code and
the password unmodified, and shows no alert. When the read of `oobCode` raises
(malformed percent-encoding), the function ends there, with no alert and no
call. -/
theorem handleResetPassword_validation (p : Page) :
    (jsLength p.newPassword < 6 → (handleResetPassword p).authCalls = p.authCalls) ∧
      (∀ a, getParameterByName p.href "oobCode".toList = .ok a →
        (jsLength p.newPassword < 6 →
          (∃ text, (handleResetPassword p).alerts = p.alerts ++ [text]) ∧
            (handleResetPassword p).authCalls = p.authCalls) ∧
        (6 ≤ jsLength p.newPassword →
          (handleResetPassword p).authCalls = p.authCalls ++ [(a, p.newPassword)] ∧
            (handleResetPassword p).alerts = p.alerts)) ∧
      (∀ e, getParameterByName p.href "oobCode".toList = .error e →
        handleResetPassword p = { p with uncaught := p.uncaught ++ [e] }) := by
  refine ⟨fun hlt => ?_, fun a ha => ⟨fun hlt => ?_, fun hge => ?_⟩, fun e he => ?_⟩
  · unfold handleResetPassword
    split
    · rfl
    · by_cases h0 : p.newPassword = []
      · simp only [h0, if_true]
      · simp only [h0, if_false, hlt, if_true]
  · simp only [handleResetPassword, ha]
    by_cases h0 : p.newPassword = []
    · rw [if_pos h0]
      exact ⟨⟨_, rfl⟩, rfl⟩
    · rw [if_neg h0, if_pos hlt]
      exact ⟨⟨_, rfl⟩, rfl⟩
  · have h0 : p.newPassword ≠ [] := by
      intro h0
      rw [h0] at hge
      simp [jsLength] at hge
    have hlt : ¬ jsLength p.newPassword < 6 := by omega
    simp only [handleResetPassword, ha, h0, if_false, hlt, and_self]
  · simp only [handleResetPassword, he]

theorem handleResetPassword_validation_witness :
    (handleResetPassword (freshPage "https://h/p?oobCode=a%20b".toList "/p".toList
        "?oobCode=a%20b".toList "secret😀".toList)).authCalls
      = [(some "a b".toList, "secret😀".toList)] ∧
    (handleResetPassword (freshPage "https://h/p?oobCode=a%20b".toList "/p".toList
        "?oobCode=a%20b".toList "abc😀".toList)).authCalls = [] := by
  have h1 := (((handleResetPassword_validation (freshPage "https://h/p?oobCode=a%20b".toList
    "/p".toList "?oobCode=a%20b".toList "secret😀".toList)).2.1 (some "a b".toList)
    (by decide)).2 (by decide)).1
  have h2 := (handleResetPassword_validation (freshPage "https://h/p?oobCode=a%20b".toList
    "/p".toList "?oobCode=a%20b".toList "abc😀".toList)).1 (by decide)
  exact ⟨h1, h2⟩

/-! ## The load handler -/

/-- C7, as stated, fails: with the URL `https://h/p/abc?mode=%` the `mode`
parameter is not `resetPassword`, the pathname has the share code `abc`, and the
load handler makes no app hand-off: the read of `mode` raises `URIError` and
ends the handler. -/
theorem onLoad_stops_on_malformed_mode :
    getParameterByName "https://h/p/abc?mode=%".toList "mode".toList
        ≠ .ok (some "resetPassword".toList) ∧
      (tryOpenApp (showShareCode (freshPage "https://h/p/abc?mode=%".toList "/p/abc".toList
        "?mode=%".toList []))).navigations = ["calendario://app/p/abc?mode=%".toList] ∧
      (onLoad (freshPage "https://h/p/abc?mode=%".toList "/p/abc".toList
        "?mode=%".toList [])).navigations = [] := by
  decide

/-- C7, amended. Page-load branching, for every URL on which the reads of `mode`
and `oobCode` both return: if `mode` is `resetPassword` and `oobCode` is present
and non-empty, the load handler shows the reset-password form and hides the app
actions, and does nothing else (no share-code display, no navigation); in every
other such case it leaves the reset form as it was and does the share-code
extraction followed by the app hand-off attempt. A read that raises `URIError`
ends the handler before any of this. -/
theorem onLoad_branching (p : Page) :
    (∀ mode code, getParameterByName p.href "mode".toList = .ok mode →
        getParameterByName p.href "oobCode".toList = .ok code →
        (mode = some "resetPassword".toList ∧ (∃ a, code = some a ∧ a ≠ []) →
          (onLoad p).resetContainerDisplay = "block".toList ∧
          (onLoad p).appActionsDisplay = "none".toList ∧
          onLoad p = showResetForm p ∧
          (onLoad p).navigations = p.navigations ∧
          (onLoad p).shareCodeText = p.shareCodeText ∧
          (onLoad p).shareCodeContainerDisplay = p.shareCodeContainerDisplay) ∧
        (¬ (mode = some "resetPassword".toList ∧ (∃ a, code = some a ∧ a ≠ [])) →
          onLoad p = tryOpenApp (showShareCode p) ∧
          (onLoad p).resetContainerDisplay = p.resetContainerDisplay)) ∧
      (∀ e, (getParameterByName p.href "mode".toList = .error e ∨
          ((∃ mode, getParameterByName p.href "mode".toList = .ok mode) ∧
            getParameterByName p.href "oobCode".toList = .error e)) →
        onLoad p = { p with uncaught := p.uncaught ++ [e] }) := by
  refine ⟨fun mode code hm hc => ⟨fun hreset => ?_, fun hother => ?_⟩, fun e he => ?_⟩
  · obtain ⟨hmode, a, hcode, ha⟩ := hreset
    have hcond : mode = some "resetPassword".toList ∧ code ≠ none ∧ code ≠ some [] := by
      refine ⟨hmode, by simp [hcode], ?_⟩
      rw [hcode]
      intro h
      exact ha (Option.some.inj h)
    have heq : onLoad p = showResetForm p := by
      simp only [onLoad, hm, hc, if_pos hcond]
    rw [heq]
    simp [showResetForm]
  · have hcond : ¬ (mode = some "resetPassword".toList ∧ code ≠ none ∧ code ≠ some []) := by
      rintro ⟨hmode, h1, h2⟩
      apply hother
      refine ⟨hmode, ?_⟩
      cases code with
      | none => exact absurd rfl h1
      | some a => exact ⟨a, rfl, fun ha => h2 (by rw [ha])⟩
    have heq : onLoad p = tryOpenApp (showShareCode p) := by
      simp only [onLoad, hm, hc, if_neg hcond]
    refine ⟨heq, ?_⟩
    rw [heq, (tryOpenApp_keeps_share_code _).2.2, (showShareCode_keeps_reset p).1]
  · rcases he with he | ⟨⟨mode, hm⟩, he⟩
    · simp only [onLoad, he]
    · simp only [onLoad, hm, he]

theorem onLoad_branching_witness :
    onLoad (freshPage "https://h/a?mode=resetPassword&oobCode=X1".toList "/a".toList
        "?mode=resetPassword&oobCode=X1".toList [])
      = showResetForm (freshPage "https://h/a?mode=resetPassword&oobCode=X1".toList "/a".toList
        "?mode=resetPassword&oobCode=X1".toList []) ∧
    (onLoad (freshPage "https://h/p/abc?mode=resetPassword&oobCode=".toList "/p/abc".toList
        "?mode=resetPassword&oobCode=".toList [])).navigations
      = ["calendario://app/p/abc?mode=resetPassword&oobCode=".toList] := by
  have h1 := (((onLoad_branching (freshPage "https://h/a?mode=resetPassword&oobCode=X1".toList
    "/a".toList "?mode=resetPassword&oobCode=X1".toList [])).1 (some "resetPassword".toList)
    (some "X1".toList) (by decide) (by decide)).1 ⟨rfl, "X1".toList, rfl, by decide⟩).2.2.1
  have h2 := (((onLoad_branching
    (freshPage "https://h/p/abc?mode=resetPassword&oobCode=".toList "/p/abc".toList
      "?mode=resetPassword&oobCode=".toList [])).1 (some "resetPassword".toList)
    (some []) (by decide) (by decide)).2 (by
      rintro ⟨-, a, ha, hne⟩
      exact hne (Option.some.inj ha).symm)).1
  refine ⟨h1, ?_⟩
  rw [h2]
  decide

/-! ## `+` and `%` in a captured value -/

theorem plusToSpace_percent (v : Str) : '%' ∈ plusToSpace v ↔ '%' ∈ v := by
  induction v with
  | nil => simp [plusToSpace]
  | cons c cs ih =>
    simp only [plusToSpace, List.map_cons, List.mem_cons] at ih ⊢
    rw [ih]
    by_cases hc : c = '+'
    · subst hc
      simp
    · simp [hc]

/-! ## `getParameterByName`: what it returns -/

/-- An occurrence before which the pattern matches at no position is the leftmost
one. -/
theorem firstOccurrence_of_matchHere (name url pre tail : Str) (hn : PlainName name)
    (ho : OccursAt name url pre tail)
    (hnone : ∀ i, i < pre.length → matchHere name (url.drop i) = none) :
    FirstOccurrence name url pre tail := by
  refine ⟨ho, fun pre' tail' ho' => ?_⟩
  by_contra hlt
  have hn' := hnone pre'.length (by omega)
  obtain ⟨d, hd, hurl, hdel⟩ := ho'
  have hdrop : url.drop pre'.length = d :: (name ++ tail') := by
    rw [hurl]
    simp
  have hm := matchHere_of_occurs name hn (url.drop pre'.length) tail'
    ⟨d, hd, by rw [hdrop]; rfl, hdel⟩
  obtain ⟨g, hg⟩ := (matchValue_isSome_iff tail').2 hdel
  rw [hn', hg] at hm
  cases hm

/-- The result of `getParameterByName` in terms of what follows the name at the
leftmost occurrence of the parameter. -/
theorem getParameterByName_of_first (url name pre tail : Str) (hn : PlainName name)
    (hf : FirstOccurrence name url pre tail) :
    getParameterByName url name =
      match matchValue tail with
      | none => .ok none
      | some none => .ok (some [])
      | some (some []) => .ok (some [])
      | some (some (c :: v)) => Except.map some (decodeURIComponent (plusToSpace (c :: v))) := by
  unfold getParameterByName
  rw [escapeBrackets_plain name hn, regexExec_first name hn pre url tail hf]
  rcases matchValue tail with _ | _ | _ | ⟨c, v⟩
  · rfl
  · rfl
  · rfl
  · simp only []
    cases decodeURIComponent (plusToSpace (c :: v)) <;> rfl

/-- C1, as stated, fails: the URL `https://h/p#?mode=x` has an empty query string,
so no parameter `mode` in it, and `getParameterByName` returns `x`, not `null`:
the regular expression is run on the whole text of the URL, fragment included. -/
theorem getParameterByName_reads_fragment :
    PlainName "mode".toList ∧
      queryString "https://h/p#?mode=x".toList = [] ∧
      "mode".toList ∉ queryParameterNames "https://h/p#?mode=x".toList ∧
      getParameterByName "https://h/p#?mode=x".toList "mode".toList = .ok (some "x".toList) := by
  unfold PlainName
  decide

/-- C1, amended. For every URL and every parameter name free of regex
metacharacters, `getParameterByName` goes by the leftmost place in the whole text
of the URL (path, query string and fragment alike) where a `?` or `&` is followed
by the name and then by `=`, `&`, `#` or the end of the text: (i) if there the
name is followed by `=` and a non-empty value `v` that runs up to the next `&`,
`#` or the end, it returns `v` with every `+` replaced by a space and then
percent-decoded, and raises `URIError` when that decoding does; (ii) if there the
value is empty (`name=`) or there is no `=` (`name` followed by `&`, `#` or the
end), it returns the empty string; (iii) if the text of the URL has no such
place, it returns `null`. -/
theorem getParameterByName_first_occurrence (url name : Str) (hn : PlainName name) :
    (∀ pre v rest, FirstOccurrence name url pre ('=' :: (v ++ rest)) → v ≠ [] →
        (∀ c ∈ v, c ≠ '&' ∧ c ≠ '#') → ValueEnds rest →
        getParameterByName url name = Except.map some (decodeURIComponent (plusToSpace v))) ∧
      (∀ pre rest, FirstOccurrence name url pre ('=' :: rest) → ValueEnds rest →
        getParameterByName url name = .ok (some [])) ∧
      (∀ pre tail, FirstOccurrence name url pre tail → ValueEnds tail →
        getParameterByName url name = .ok (some [])) ∧
      ((∀ pre tail, ¬ OccursAt name url pre tail) →
        getParameterByName url name = .ok none) := by
  refine ⟨fun pre v rest hf hv hvc hr => ?_, fun pre rest hf hr => ?_,
    fun pre tail hf hr => ?_, fun ha => ?_⟩
  · rw [getParameterByName_of_first url name pre _ hn hf]
    have ht := takeWhile_value v rest hvc hr
    cases v with
    | nil => exact absurd rfl hv
    | cons c v' =>
      simp only [matchValue, if_true, ht]
  · rw [getParameterByName_of_first url name pre _ hn hf]
    have ht := takeWhile_value [] rest (by simp) hr
    simp only [List.nil_append] at ht
    simp only [matchValue, if_true, ht]
  · rw [getParameterByName_of_first url name pre _ hn hf]
    rcases hr with hr | ⟨c, r, hr, hc⟩
    · subst hr
      simp only [matchValue]
    · subst hr
      have h1 : c ≠ '=' := by
        rcases hc with hc | hc <;> subst hc <;> decide
      simp only [matchValue, h1, if_false, hc, if_true]
  · unfold getParameterByName
    rw [escapeBrackets_plain name hn, regexExec_absent name hn url ha]

theorem getParameterByName_first_occurrence_witness :
    PlainName "oobCode".toList ∧
      getParameterByName "https://h/?m=1&oobCode=a%20b+c#x".toList "oobCode".toList
        = .ok (some "a b c".toList) := by
  have hn : PlainName "oobCode".toList := by
    unfold PlainName
    decide
  have h := (getParameterByName_first_occurrence "https://h/?m=1&oobCode=a%20b+c#x".toList
    "oobCode".toList hn).1 "https://h/?m=1".toList "a%20b+c".toList "#x".toList
    (firstOccurrence_of_matchHere _ _ _ _ hn
      ⟨'&', Or.inr rfl, by decide, Or.inr ⟨'=', _, rfl, Or.inl rfl⟩⟩ (by decide))
    (by decide) (by decide) (Or.inr ⟨'#', _, rfl, Or.inr rfl⟩)
  refine ⟨hn, ?_⟩
  rw [h]
  decide

/-! ## Round trip over `encodeURIComponent` -/

theorem alnum_ordinary (c : Char) (h : c.isAlphanum = true) :
    isSyntaxChar c = false ∧ c ≠ '?' := by
  constructor
  · cases hs : isSyntaxChar c with
    | false => rfl
    | true =>
      simp only [isSyntaxChar, Bool.or_eq_true, decide_eq_true_eq] at hs
      rcases hs with (((((((((((((hs | hs) | hs) | hs) | hs) | hs) | hs) | hs) | hs) | hs) | hs)
        | hs) | hs) | hs) <;> subst hs <;> exact absurd h (by decide)
  · intro hc
    subst hc
    exact absurd h (by decide)

theorem encodeURIComponent_eq_nil (v : Str) (h : encodeURIComponent v = []) : v = [] := by
  cases v with
  | nil => rfl
  | cons c cs =>
    have hstep := decodeStep_encodeChar c (encodeURIComponent cs)
    have hsplit : encodeURIComponent (c :: cs) = encodeChar c ++ encodeURIComponent cs := by
      simp [encodeURIComponent]
    rw [hsplit] at h
    rw [h] at hstep
    exact hstep.elim

theorem delimited_in_base (base name pre : Str) (hf : '#' ∉ base)
    (h1 : ¬ ('&' :: (name ++ ['='])) <:+: base) (h2 : ¬ ('&' :: (name ++ ['&'])) <:+: base)
    (c : Char) (r : Str) (hbase : base = pre ++ '&' :: (name ++ c :: r))
    (hc : c = '=' ∨ c = '&' ∨ c = '#') : False := by
  rcases hc with hc | hc | hc
  · subst hc
    exact h1 ⟨pre, r, by rw [hbase]; simp⟩
  · subst hc
    exact h2 ⟨pre, r, by rw [hbase]; simp⟩
  · subst hc
    exact hf (by rw [hbase]; simp)

theorem round_trip_first (base name enc : Str) (hq : '?' ∉ base) (hf : '#' ∉ base)
    (hn : ∀ c ∈ name, c.isAlphanum = true)
    (h1 : ¬ ('&' :: (name ++ ['='])) <:+: base) (h2 : ¬ ('&' :: (name ++ ['&'])) <:+: base) :
    FirstOccurrence name (base ++ '?' :: (name ++ '=' :: enc)) base ('=' :: enc) := by
  refine ⟨⟨'?', Or.inl rfl, rfl, Or.inr ⟨'=', enc, rfl, Or.inl rfl⟩⟩, ?_⟩
  rintro pre' tail' ⟨d, hd, hurl, hdel⟩
  by_contra hlt
  rcases List.append_eq_append_iff.mp hurl with ⟨a, hpre, -⟩ | ⟨a, hbase, hrest⟩
  · rw [hpre] at hlt
    simp at hlt
  · cases a with
    | nil =>
      rw [hbase] at hlt
      simp at hlt
    | cons x a' =>
      simp only [List.cons_append, List.cons.injEq] at hrest
      obtain ⟨hx, hrest⟩ := hrest
      subst hx
      have hdb : d ∈ base := by rw [hbase]; simp
      have hd' : d = '&' := by
        rcases hd with hd | hd
        · exact absurd (hd ▸ hdb) hq
        · exact hd
      subst hd'
      rcases List.append_eq_append_iff.mp hrest with ⟨b, ha', hb⟩ | ⟨b, hname, hb⟩
      · rcases hdel with hnil | ⟨c, r, htail, hc⟩
        · rw [hnil] at hb
          simp at hb
        · cases b with
          | nil =>
            rw [htail] at hb
            simp only [List.nil_append, List.cons.injEq] at hb
            rcases hc with hc | hc | hc <;> rw [hc] at hb <;> exact absurd hb.1 (by decide)
          | cons y b' =>
            rw [htail] at hb
            simp only [List.cons_append, List.cons.injEq] at hb
            refine delimited_in_base base name pre' hf h1 h2 c b' ?_ hc
            rw [hbase, ha', hb.1]
      · cases b with
        | nil =>
          simp only [List.nil_append] at hb
          rcases hdel with hnil | ⟨c, r, htail, hc⟩
          · rw [hnil] at hb
            cases hb
          · rw [htail] at hb
            simp only [List.cons.injEq] at hb
            rcases hc with hc | hc | hc <;> rw [hc] at hb <;> exact absurd hb.1 (by decide)
        | cons y b' =>
          simp only [List.cons_append, List.cons.injEq] at hb
          have hy : '?' ∈ name := by rw [hname, ← hb.1]; simp
          exact (alnum_ordinary _ (hn _ hy)).2 rfl

/-- C2, as stated, fails: the base URL `https://h/&a=1` has no query and no
fragment and the name `a` is a letter, and on `https://h/&a=1?a=b`, the base with
`?a=` and the encoding of `b` appended, `getParameterByName` returns `1?a=b`,
not `b`; on the base alone it returns `1`, not `null`. -/
theorem round_trip_fails_on_ampersand_in_path :
    '?' ∉ "https://h/&a=1".toList ∧ '#' ∉ "https://h/&a=1".toList ∧
      (∀ c ∈ "a".toList, c.isAlphanum = true) ∧
      getParameterByName
          ("https://h/&a=1".toList ++ '?' :: ("a".toList ++ '=' :: encodeURIComponent "b".toList))
          "a".toList = .ok (some "1?a=b".toList) ∧
      getParameterByName "https://h/&a=1".toList "a".toList = .ok (some "1".toList) := by
  decide

/-- C2, amended. Round trip of `getParameterByName` over URL encoding: for every
base URL with no `?` and no `#` in which `&` followed by the name is nowhere
followed by `=` or `&` and does not end the base, every parameter name made of
ASCII letters and digits, and every string `v`, `getParameterByName(name)` on the
base followed by `?`, the name, `=` and `encodeURIComponent(v)` returns exactly
`v` (the empty string when `v` is empty), and on the base URL alone it returns
`null`. -/
theorem getParameterByName_round_trip (base name v : Str) (hq : '?' ∉ base) (hf : '#' ∉ base)
    (hn : ∀ c ∈ name, c.isAlphanum = true)
    (h1 : ¬ ('&' :: (name ++ ['='])) <:+: base) (h2 : ¬ ('&' :: (name ++ ['&'])) <:+: base)
    (h3 : ¬ ('&' :: name) <:+ base) :
    getParameterByName (base ++ '?' :: (name ++ '=' :: encodeURIComponent v)) name
        = .ok (some v) ∧
      getParameterByName base name = .ok none := by
  have hplain : PlainName name := fun c hc => (alnum_ordinary c (hn c hc)).1
  have hfirst := round_trip_first base name (encodeURIComponent v) hq hf hn h1 h2
  have hspecial := encode_not_special v
  constructor
  · rw [getParameterByName_of_first _ name base _ hplain hfirst]
    have ht := takeWhile_value (encodeURIComponent v) []
      (fun c hc => (hspecial c hc).2) (Or.inl rfl)
    simp only [List.append_nil] at ht
    simp only [matchValue, if_true, ht]
    cases he : encodeURIComponent v with
    | nil =>
      rw [encodeURIComponent_eq_nil v he]
    | cons c e =>
      simp only []
      rw [← he, plusToSpace_no_plus _ (fun x hx => (hspecial x hx).1), decode_encode]
      rfl
  · unfold getParameterByName
    rw [escapeBrackets_plain name hplain, regexExec_absent name hplain base]
    rintro pre tail ⟨d, hd, hurl, hdel⟩
    have hdb : d ∈ base := by rw [hurl]; simp
    rcases hd with hd | hd
    · exact hq (hd ▸ hdb)
    · subst hd
      rcases hdel with hnil | ⟨c, r, htail, hc⟩
      · subst hnil
        exact h3 ⟨pre, by rw [hurl]; simp⟩
      · exact delimited_in_base base name pre hf h1 h2 c r (by rw [hurl, htail]) hc

theorem getParameterByName_round_trip_witness :
    getParameterByName
        ("https://h/&ab/c&ax".toList ++ '?' :: ("a".toList ++ '=' ::
          encodeURIComponent "x y+&=é😀%".toList)) "a".toList
      = .ok (some "x y+&=é😀%".toList) ∧
    getParameterByName "https://h/&ab/c&ax".toList "a".toList = .ok none :=
  getParameterByName_round_trip "https://h/&ab/c&ax".toList "a".toList "x y+&=é😀%".toList
    (by decide) (by decide) (by decide) (by decide) (by decide) (by decide)

/-! ## Where a parameter read fails -/

/-- A match of the regular expression is at the leftmost occurrence of the
parameter. -/
theorem regexExec_some (name : Str) (h : PlainName name) (url : Str) (g : Option Str)
    (hr : regexExec name url = some g) :
    ∃ pre tail, FirstOccurrence name url pre tail ∧ matchValue tail = some g := by
  induction url with
  | nil => simp [regexExec] at hr
  | cons c rest ih =>
    simp only [regexExec] at hr
    cases hm : matchHere name (c :: rest) with
    | some g' =>
      simp only [hm, Option.some.injEq] at hr
      subst hr
      obtain ⟨d, tail, hd, hurl, hv⟩ := (matchHere_plain name h _ g').1 hm
      refine ⟨[], tail, ⟨⟨d, hd, by simpa using hurl, (matchValue_isSome_iff tail).1 ⟨g', hv⟩⟩,
        fun _ _ _ => Nat.zero_le _⟩, hv⟩
    | none =>
      simp only [hm] at hr
      obtain ⟨pre, tail, ⟨⟨d, hd, hurl, hdel⟩, hmin⟩, hv⟩ := ih hr
      refine ⟨c :: pre, tail, ⟨⟨d, hd, by rw [hurl]; rfl, hdel⟩, ?_⟩, hv⟩
      rintro pre' tail' ho'
      cases pre' with
      | nil =>
        have := matchHere_of_occurs name h (c :: rest) tail' ho'
        obtain ⟨g', hg'⟩ := (matchValue_isSome_iff tail').2 ho'.choose_spec.2.2
        rw [hm, hg'] at this
        cases this
      | cons x pre'' =>
        obtain ⟨d', hd', hurl', hdel'⟩ := ho'
        simp only [List.cons_append, List.cons.injEq] at hurl'
        have := hmin pre'' tail' ⟨d', hd', hurl'.2, hdel'⟩
        simp only [List.length_cons]
        omega

theorem dropWhile_value_ends (l : Str) :
    ValueEnds (l.dropWhile (fun d => decide (d ≠ '&' ∧ d ≠ '#'))) := by
  induction l with
  | nil => exact Or.inl rfl
  | cons c cs ih =>
    by_cases hc : c ≠ '&' ∧ c ≠ '#'
    · have hd : decide (c ≠ '&' ∧ c ≠ '#') = true := decide_eq_true hc
      rw [List.dropWhile_cons, hd]
      exact ih
    · have hd : decide (c ≠ '&' ∧ c ≠ '#') = false := decide_eq_false hc
      rw [List.dropWhile_cons, hd]
      refine Or.inr ⟨c, cs, rfl, ?_⟩
      by_cases h1 : c = '&'
      · exact Or.inl h1
      · by_cases h2 : c = '#'
        · exact Or.inr h2
        · exact absurd ⟨h1, h2⟩ hc

/-- A captured value is the text between the `=` after the name and the next `&`,
`#` or the end. -/
theorem matchValue_value (tail v : Str) (h : matchValue tail = some (some v)) :
    ∃ rest, tail = '=' :: (v ++ rest) ∧ (∀ c ∈ v, c ≠ '&' ∧ c ≠ '#') ∧ ValueEnds rest := by
  cases tail with
  | nil => simp [matchValue] at h
  | cons d l =>
    simp only [matchValue] at h
    split at h
    · rename_i hd
      simp only [Option.some.injEq] at h
      refine ⟨l.dropWhile (fun d => decide (d ≠ '&' ∧ d ≠ '#')), ?_, ?_, dropWhile_value_ends l⟩
      · rw [hd, ← h, List.takeWhile_append_dropWhile]
      · intro c hc
        rw [← h] at hc
        have := List.mem_takeWhile_imp hc
        exact of_decide_eq_true this
    · split at h <;> simp at h

/-- A read raises exactly when `decodeURIComponent` raises on the value captured
at the leftmost occurrence of the parameter. -/
theorem getParameterByName_error_iff (url name : Str) (hn : PlainName name) (e : JsError) :
    getParameterByName url name = .error e ↔
      ∃ pre v rest, FirstOccurrence name url pre ('=' :: (v ++ rest)) ∧
        (∀ c ∈ v, c ≠ '&' ∧ c ≠ '#') ∧ ValueEnds rest ∧
        decodeURIComponent (plusToSpace v) = .error e := by
  constructor
  · intro h
    unfold getParameterByName at h
    rw [escapeBrackets_plain name hn] at h
    split at h
    · cases h
    · cases h
    · cases h
    · rename_i c v hre
      obtain ⟨pre, tail, hf, hv⟩ := regexExec_some name hn url _ hre
      obtain ⟨rest, htail, hvc, hends⟩ := matchValue_value tail (c :: v) hv
      refine ⟨pre, c :: v, rest, htail ▸ hf, hvc, hends, ?_⟩
      cases hd : decodeURIComponent (plusToSpace (c :: v)) with
      | error e' =>
        simp only [hd, Except.error.injEq] at h
        cases e
        cases e'
        rfl
      | ok s => simp [hd] at h
  · rintro ⟨pre, v, rest, hf, hvc, hends, hd⟩
    rw [getParameterByName_of_first url name pre _ hn hf]
    have ht := takeWhile_value v rest hvc hends
    cases v with
    | nil =>
      simp [plusToSpace, decodeURIComponent, decodeLoop] at hd
    | cons c v' =>
      simp only [matchValue, if_true, ht, hd]
      rfl

theorem firstOccurrence_mem (name url pre tail : Str) (hf : FirstOccurrence name url pre tail) :
    ∀ c ∈ tail, c ∈ url := by
  obtain ⟨⟨d, -, hurl, -⟩, -⟩ := hf
  intro c hc
  rw [hurl]
  simp [hc]

/-- C9, as stated, fails: the read of `mode` raises `URIError` for a value with a
`%` that is not followed by two hexadecimal digits, the read of `oobCode` for
escapes that are not valid UTF-8, and the load handler then ends with the
exception uncaught. -/
theorem getParameterByName_raises :
    getParameterByName "https://h/p?mode=%".toList "mode".toList = .error .uriError ∧
      getParameterByName "https://h/p?oobCode=%C0%80".toList "oobCode".toList
        = .error .uriError ∧
      (onLoad (freshPage "https://h/p?mode=%".toList "/p".toList "?mode=%".toList [])).uncaught
        = [JsError.uriError] := by
  decide

/-- C9, amended. For a parameter name free of regex metacharacters, such as
`mode` and `oobCode`, a read fails in percent-decoding and nowhere else:
`getParameterByName` raises exactly when, at the leftmost occurrence of the
parameter in the text of the URL, the name is followed by `=` and a value `v`
(running up to the next `&`, `#` or the end) on which `decodeURIComponent`, after
`+` is turned into a space, raises; such a value has a `%` in it, so on a URL
without `%` the read returns a string or `null`. Whenever the reads of `mode` and
`oobCode` both return, the load handler ends in the reset form or in the
share-code display and app hand-off, and `handleResetPassword` ends in an alert or
in the call of `auth.confirmPasswordReset`; when a read raises, the handler that
made it ends with the exception uncaught. -/
theorem parameter_reads_fail_only_in_decoding (p : Page) (name : Str) (hn : PlainName name) :
    (∀ e, getParameterByName p.href name = .error e ↔
        ∃ pre v rest, FirstOccurrence name p.href pre ('=' :: (v ++ rest)) ∧
          (∀ c ∈ v, c ≠ '&' ∧ c ≠ '#') ∧ ValueEnds rest ∧
          decodeURIComponent (plusToSpace v) = .error e) ∧
      (∀ e, getParameterByName p.href name = .error e → '%' ∈ p.href) ∧
      ('%' ∉ p.href → ∃ r, getParameterByName p.href name = .ok r) ∧
      ((∃ m, getParameterByName p.href "mode".toList = .ok m) →
        (∃ a, getParameterByName p.href "oobCode".toList = .ok a) →
        (onLoad p = showResetForm p ∨ onLoad p = tryOpenApp (showShareCode p)) ∧
        ((∃ text, handleResetPassword p = { p with alerts := p.alerts ++ [text] }) ∨
          (∃ a, handleResetPassword p
            = { p with authCalls := p.authCalls ++ [(a, p.newPassword)] }))) ∧
      (∀ e, getParameterByName p.href "oobCode".toList = .error e →
        handleResetPassword p = { p with uncaught := p.uncaught ++ [e] } ∧
        onLoad p = { p with uncaught := p.uncaught ++ [e] }) ∧
      (∀ e, getParameterByName p.href "mode".toList = .error e →
        onLoad p = { p with uncaught := p.uncaught ++ [e] }) := by
  have hpercent : ∀ e, getParameterByName p.href name = .error e → '%' ∈ p.href := by
    intro e he
    obtain ⟨pre, v, rest, hf, -, -, hd⟩ := (getParameterByName_error_iff p.href name hn e).1 he
    have hv : '%' ∈ v := by
      by_contra hno
      have hno' : '%' ∉ plusToSpace v := fun hp => hno ((plusToSpace_percent _).1 hp)
      rw [decodeURIComponent_no_percent _ hno'] at hd
      cases hd
    exact firstOccurrence_mem name p.href pre _ hf '%' (by simp [hv])
  refine ⟨fun e => getParameterByName_error_iff p.href name hn e, hpercent, fun hno => ?_, ?_,
    fun e he => ?_, fun e he => ?_⟩
  · cases hg : getParameterByName p.href name with
    | ok r => exact ⟨r, rfl⟩
    | error e => exact absurd (hpercent e hg) hno
  · rintro ⟨m, hm⟩ ⟨a, ha⟩
    constructor
    · simp only [onLoad, hm, ha]
      split
      · exact Or.inl rfl
      · exact Or.inr rfl
    · simp only [handleResetPassword, ha]
      split
      · exact Or.inl ⟨_, rfl⟩
      · split
        · exact Or.inl ⟨_, rfl⟩
        · exact Or.inr ⟨_, rfl⟩
  · refine ⟨by simp only [handleResetPassword, he], ?_⟩
    unfold onLoad
    split
    · rename_i e' _
      cases e
      cases e'
      rfl
    · simp only [he]
  · simp only [onLoad, he]

theorem parameter_reads_fail_only_in_decoding_witness :
    PlainName "mode".toList ∧
      getParameterByName "https://h/p?x=1&mode=a%2".toList "mode".toList = .error .uriError ∧
      (∃ m, getParameterByName "https://h/p?mode=a+b&x".toList "mode".toList = .ok m) := by
  have hn : PlainName "mode".toList := by
    unfold PlainName
    decide
  have h1 := ((parameter_reads_fail_only_in_decoding
    (freshPage "https://h/p?x=1&mode=a%2".toList "/p".toList "?x=1&mode=a%2".toList [])
    "mode".toList hn).1 .uriError).2
    ⟨"https://h/p?x=1".toList, "a%2".toList, [],
      firstOccurrence_of_matchHere _ _ _ _ hn
        ⟨'&', Or.inr rfl, by decide, Or.inr ⟨'=', _, rfl, Or.inl rfl⟩⟩ (by decide),
      by decide, Or.inl rfl, by decide⟩
  have h2 := (parameter_reads_fail_only_in_decoding
    (freshPage "https://h/p?mode=a+b&x".toList "/p".toList "?mode=a+b&x".toList [])
    "mode".toList hn).2.2.1 (by decide)
  exact ⟨hn, h1, h2⟩

end Calendario
